import Mathlib

/-!
Verification of the dutch_address_validator repository.

The Python sources under src/dutch_postal_address are shallowly embedded:
strings become `List Char`, Python ints become `Int` (or `Nat` where the
source guarantees non-negativity), dictionaries become association lists in
insertion order, and fallible parsing returns `Option`.

Python's character-level library functions (str.upper/lower/strip,
unicodedata.normalize('NFKD', ...), the regex classes \w, \s, \d, [A-Za-z],
str.isdigit/isalpha) are modelled over the full ASCII range plus a small
explicit table of non-ASCII letters and decomposable accented characters
(é, ë and the o-slash/ae ligature family); characters outside that table
behave as unclassified identity characters.  All definitions are executable.
-/

namespace DutchPostal

/-- Convenience: the character list of a string literal. -/
def cs (s : String) : List Char := s.data

/-- Python regex `\s` / `str.strip` whitespace, modelled on the ASCII range
(space, tab, newline, carriage return, vertical tab, form feed). -/
def pyIsSpace (c : Char) : Bool :=
  c = ' ' || c = '\t' || c = '\n' || c = '\r' || c = '\x0b' || c = '\x0c'

/-- Non-ASCII characters modelled as letters (Python `str.isalpha` is true,
and regex `\w` matches, for these). -/
def extraLetters : List Char := ['ø', 'æ', 'Ø', 'Æ']

/-- Python `str.isalpha` on a single character, over the modelled range. -/
def pyIsAlpha (c : Char) : Bool := c.isAlpha || extraLetters.contains c

/-- Python regex `\w` (letters, digits, underscore) over the modelled range. -/
def isWordChar (c : Char) : Bool := pyIsAlpha c || c.isDigit || c = '_'

/-- Python `str.lower` on one character: ASCII case map plus the modelled
non-ASCII letters. -/
def pyLowerC (c : Char) : Char :=
  if c = 'Ø' then 'ø' else if c = 'Æ' then 'æ' else c.toLower

/-- Python `str.upper` on one character: ASCII case map plus the modelled
non-ASCII letters. -/
def pyUpperC (c : Char) : Char :=
  if c = 'ø' then 'Ø' else if c = 'æ' then 'Æ' else c.toUpper

/-- `unicodedata.normalize('NFKD', ...)` on one character, over the modelled
table: the accented vowels decompose into a base letter followed by a
combining mark; every other modelled character is NFKD-stable. -/
def nfkdChar (c : Char) : List Char :=
  if c = 'é' then ['e', '́'] else
  if c = 'É' then ['E', '́'] else
  if c = 'ë' then ['e', '̈'] else
  if c = 'Ë' then ['E', '̈'] else [c]

/-- NFKD decomposition of a whole string. -/
def nfkdStr (l : List Char) : List Char := (l.map nfkdChar).flatten

/-- One character of `re.sub(r'[^\w\s]', ' ', name)`: anything that is
neither a word character nor whitespace becomes a single space. -/
def replaceChar (c : Char) : Char :=
  if isWordChar c || pyIsSpace c then c else ' '

/-- `re.sub(r'\s+', ' ', name)`: every maximal whitespace run (length >= 1)
becomes one space. -/
def squeezeWs : List Char → List Char
  | [] => []
  | [c] => if pyIsSpace c then [' '] else [c]
  | c1 :: c2 :: rest =>
    if pyIsSpace c1 then
      if pyIsSpace c2 then squeezeWs (c2 :: rest)
      else ' ' :: squeezeWs (c2 :: rest)
    else c1 :: squeezeWs (c2 :: rest)

/-- Remove trailing whitespace. -/
def dropTrailWs (l : List Char) : List Char :=
  (l.reverse.dropWhile pyIsSpace).reverse

/-- Python `str.strip()` over the modelled whitespace set. -/
def pyStrip (l : List Char) : List Char := dropTrailWs (l.dropWhile pyIsSpace)

/-- `DataLoader._normalize_name`: NFKD-decompose, lower-case, replace
non-word non-space characters by a space, collapse whitespace runs to a
single space, and strip. -/
def normalizeName (l : List Char) : List Char :=
  pyStrip (squeezeWs (((nfkdStr l).map pyLowerC).map replaceChar))

/-- `postcode.upper().replace(' ', '')` from `Address._normalize_postcode`. -/
def cleanedPc (l : List Char) : List Char :=
  (l.map pyUpperC).filter (fun c => c ≠ ' ')

/-- `Address._normalize_postcode`: empty stays empty; otherwise upper-case
and delete every space; if the result is 4 digits followed by 2 letters,
store it as `DDDD XX`, else store it unchanged. -/
def normalizePostcode (l : List Char) : List Char :=
  if l = [] then []
  else
    let u := cleanedPc l
    if u.length = 6 ∧ (u.take 4).all Char.isDigit ∧ (u.drop 4).all pyIsAlpha then
      u.take 4 ++ ' ' :: u.drop 4
    else u

/-- The immutable `Address` dataclass (fields as stored after
`__post_init__`). -/
structure Address where
  streetName : List Char
  houseNumber : Int
  houseNumberExtension : List Char
  postcode : List Char
  city : List Char
deriving DecidableEq, Repr

/-- `Address(...)` construction including `__post_init__`: the extension is
upper-cased and the postcode normalized. -/
def mkAddress (s : List Char) (n : Int) (e p c : List Char) : Address :=
  { streetName := s, houseNumber := n,
    houseNumberExtension := e.map pyUpperC,
    postcode := normalizePostcode p, city := c }

/-- `Address.pc4`: first 4 characters of the postcode, stripped, when the
postcode has at least 4 characters. -/
def Address.pc4 (a : Address) : List Char :=
  if 4 ≤ a.postcode.length then pyStrip (a.postcode.take 4) else []

/-- `Address.pc6`: the postcode with spaces removed. -/
def Address.pc6 (a : Address) : List Char :=
  a.postcode.filter (fun c => c ≠ ' ')

/-- Decimal digit string of a natural number, as Python `str` renders it. -/
def natToChars (n : Nat) : List Char :=
  if n = 0 then ['0'] else ((Nat.digits 10 n).reverse).map Nat.digitChar

/-- Decimal rendering of a Python int. -/
def intToChars (i : Int) : List Char :=
  if i < 0 then '-' :: natToChars i.natAbs else natToChars i.toNat

/-- Numeric value of a list of decimal digit characters (`int` on a digit
string). -/
def charsToNat (l : List Char) : Nat :=
  l.foldl (fun acc c => acc * 10 + (c.toNat - 48)) 0

/-- `Address.to_lines`: `"street number extension"` and
`"postcode  city"` (two spaces). -/
def toLines (a : Address) : List (List Char) :=
  [ pyStrip (a.streetName ++ ' ' :: (intToChars a.houseNumber ++ a.houseNumberExtension)),
    a.postcode ++ ' ' :: ' ' :: a.city ]

/-- The suffix of the street regex `\s+(\d+)([A-Za-z]*?)$`: the remainder
must be a nonempty whitespace run, then a nonempty digit run, then letters
only up to the end of the line.  Such a decomposition is unique when it
exists.  Returns the parsed house number and the extension. -/
def tailDecomp (l : List Char) : Option (Nat × List Char) :=
  let w := l.takeWhile pyIsSpace
  let r1 := l.dropWhile pyIsSpace
  let d := r1.takeWhile Char.isDigit
  let e := r1.dropWhile Char.isDigit
  if w ≠ [] ∧ d ≠ [] ∧ e.all Char.isAlpha then some (charsToNat d, e) else none

/-- The lazy group `^(.+?)` of the street regex: scan for the shortest
nonempty prefix (which cannot contain a newline, since `.` does not match
one) whose remainder satisfies `tailDecomp`. -/
def scanStreet : List Char → List Char → Option (List Char × Nat × List Char)
  | _, [] => none
  | acc, c :: rest =>
    if c = '\n' then none
    else match tailDecomp rest with
      | some (n, e) => some (acc ++ [c], n, e)
      | none => scanStreet (acc ++ [c]) rest

/-- Parsing of the first address line in `Address.from_lines`: strip, match
`^(.+?)\s+(\d+)([A-Za-z]*?)$`, then strip the street group and upper-case
the extension group. -/
def parseLine1 (l : List Char) : Option (List Char × Nat × List Char) :=
  match scanStreet [] (pyStrip l) with
  | some (s, n, e) => some (pyStrip s, n, e.map pyUpperC)
  | none => none

/-- `re.sub(r'\s{2,}', '  ', line2)`: every maximal whitespace run of
length at least 2 becomes exactly two spaces; single whitespace characters
are kept unchanged. -/
def collapseWs2 : List Char → List Char
  | [] => []
  | [c] => [c]
  | [c1, c2] => if pyIsSpace c1 && pyIsSpace c2 then [' ', ' '] else [c1, c2]
  | c1 :: c2 :: c3 :: rest =>
    if pyIsSpace c1 && pyIsSpace c2 then
      if pyIsSpace c3 then collapseWs2 (c2 :: c3 :: rest)
      else ' ' :: ' ' :: collapseWs2 (c3 :: rest)
    else c1 :: collapseWs2 (c2 :: c3 :: rest)

/-- Python `line2.split('  ')`: split on each non-overlapping occurrence of
two consecutive space characters, left to right. -/
def splitOn2Sp : List Char → List (List Char)
  | [] => [[]]
  | [c] => [[c]]
  | c1 :: c2 :: rest =>
    if c1 = ' ' && c2 = ' ' then [] :: splitOn2Sp rest
    else match splitOn2Sp (c2 :: rest) with
      | [] => [[c1]]
      | p :: ps => (c1 :: p) :: ps

/-- Python `line2.split()` (no argument): split on whitespace runs,
discarding empty pieces. -/
def pySplitWsAux : List Char → List Char → List (List Char)
  | cur, [] => if cur = [] then [] else [cur.reverse]
  | cur, c :: rest =>
    if pyIsSpace c then
      if cur = [] then pySplitWsAux [] rest
      else cur.reverse :: pySplitWsAux [] rest
    else pySplitWsAux (c :: cur) rest

/-- Python `line2.split()` on a whole line. -/
def pySplitWs (l : List Char) : List (List Char) := pySplitWsAux [] l

/-- Python `' '.join(parts)`. -/
def joinSp : List (List Char) → List Char
  | [] => []
  | [x] => x
  | x :: xs => x ++ ' ' :: joinSp xs

/-- Parsing of the second address line in `Address.from_lines`: strip,
collapse whitespace runs to two spaces, split on two spaces; if fewer than
two parts result, fall back to a whitespace split needing at least three
pieces. -/
def parseLine2 (l : List Char) : Option (List Char × List Char) :=
  let l2 := collapseWs2 (pyStrip l)
  match splitOn2Sp l2 with
  | p0 :: p1 :: _ => some (pyStrip p0, pyStrip p1)
  | _ =>
    match pySplitWs l2 with
    | p0 :: p1 :: p2 :: rest => some (p0 ++ ' ' :: p1, joinSp (p2 :: rest))
    | _ => none

/-- `Address.from_lines`: exactly two lines, parse each, construct the
Address (running `__post_init__` again); any parse failure is the
`ValueError` branch, modelled as `none`. -/
def fromLines (lines : List (List Char)) : Option Address :=
  match lines with
  | [l1, l2] =>
    match parseLine1 l1, parseLine2 l2 with
    | some (s, n, e), some (pc, ct) => some (mkAddress s (Int.ofNat n) e pc ct)
    | _, _ => none
  | _ => none

/-- One record of the PCS_HNR.dat index (`entry` dict in
`DataLoader._load_hnr_data`). -/
structure HnrEntry where
  pc6 : List Char
  hnrFrom : Int
  hnrTo : Int
  streetId : Int
  cityId : Int
deriving DecidableEq, Repr

/-- The reference index held by `DataLoader` after `_load_all_data`: the
city and street dictionaries are modelled as their `items()` views in
insertion order (ids distinct), and the pc6 index as the flat list of
accepted entries in file order. -/
structure RefData where
  cityMap : List (Int × List Char)
  streetMap : List (Int × List Char)
  hnrEntries : List HnrEntry

/-- Python `line.split(sep)` for a one-character separator. -/
def pySplitChar (sep : Char) : List Char → List (List Char)
  | [] => [[]]
  | c :: rest =>
    if c = sep then [] :: pySplitChar sep rest
    else match pySplitChar sep rest with
      | [] => [[c]]
      | p :: ps => (c :: p) :: ps

/-- Python `int(...)` on a string: optional surrounding whitespace, an
optional sign, then at least one decimal digit; anything else raises
`ValueError`, modelled as `none`. -/
def pyInt (l : List Char) : Option Int :=
  match pyStrip l with
  | '-' :: ds =>
    if ds ≠ [] ∧ ds.all Char.isDigit then some (-(charsToNat ds : Int)) else none
  | '+' :: ds =>
    if ds ≠ [] ∧ ds.all Char.isDigit then some (charsToNat ds : Int) else none
  | ds =>
    if ds ≠ [] ∧ ds.all Char.isDigit then some (charsToNat ds : Int) else none

/-- One line of `DataLoader._load_hnr_data`: strip; skip blank lines; split
on pipes; need at least 5 fields; the stripped pc6 must have exactly 6
characters; from defaults to 0 and to defaults to from when blank; blank
street or city id skips the record; any `int` failure skips the record. -/
def parseHnrLine (rawLine : List Char) : Option HnrEntry :=
  let line := pyStrip rawLine
  if line = [] then none
  else
    match pySplitChar '|' line with
    | p0 :: p1 :: p2 :: p3 :: p4 :: _ =>
      let pc6 := pyStrip p0
      if pc6.length = 6 then
        match (if pyStrip p1 = [] then some 0 else pyInt p1) with
        | none => none
        | some f =>
          match (if pyStrip p2 = [] then some f else pyInt p2) with
          | none => none
          | some t =>
            if pyStrip p3 = [] then none
            else
              match pyInt p3 with
              | none => none
              | some sid =>
                if pyStrip p4 = [] then none
                else
                  match pyInt p4 with
                  | none => none
                  | some cid => some ⟨pc6, f, t, sid, cid⟩
      else none
    | _ => none

/-- `DataLoader._load_hnr_data` over the lines of PCS_HNR.dat: accepted
records in file order. -/
def loadHnr (rawLines : List (List Char)) : List HnrEntry :=
  rawLines.filterMap parseHnrLine

/-- `DataLoader.get_addresses_by_pc6`: the entries stored under the
upper-cased key, in insertion order. -/
def getAddressesByPc6 (data : RefData) (pc6 : List Char) : List HnrEntry :=
  data.hnrEntries.filter (fun e => e.pc6 = pc6.map pyUpperC)

/-- `DataLoader.get_cities_by_pc4` as a membership list: the city ids of
all accepted entries whose pc6 starts with the given pc4. -/
def citiesByPc4 (data : RefData) (pc4 : List Char) : List Int :=
  (data.hnrEntries.filter (fun e => e.pc6.take 4 = pc4)).map (·.cityId)

/-- Dictionary lookup in an `items()` view (`_city_map.get` /
`_street_map.get`); a later binding of the same id wins, as in a dict. -/
def lookupId (m : List (Int × List Char)) (i : Int) : Option (List Char) :=
  (m.reverse.find? (fun p => p.1 = i)).map Prod.snd

/-- `DataLoader.is_house_number_valid`: some entry under the (upper-cased)
pc6 has this street id and an inclusive range containing the house
number. -/
def isHouseNumberValid (data : RefData) (streetId : Int) (pc6 : List Char)
    (houseNumber : Int) : Bool :=
  (getAddressesByPc6 data pc6).any (fun e =>
    decide (e.streetId = streetId ∧ e.hnrFrom ≤ houseNumber ∧ houseNumber ≤ e.hnrTo))

/-- Python string `<` (lexicographic by code point). -/
def lexLt : List Char → List Char → Bool
  | [], [] => false
  | [], _ :: _ => true
  | _ :: _, [] => false
  | a :: as, b :: bs => decide (a < b) || (decide (a = b) && lexLt as bs)

/-- Insertion into an ascending sorted list (for Python `sorted`). -/
def insertAsc (x : List Char) : List (List Char) → List (List Char)
  | [] => [x]
  | y :: ys => if lexLt y x then y :: insertAsc x ys else x :: y :: ys

/-- Python `sorted` over strings. -/
def sortAsc (l : List (List Char)) : List (List Char) := l.foldr insertAsc []

/-- Length of the common prefix of two character lists. -/
def commonLen : List Char → List Char → Nat
  | a :: as, b :: bs => if a = b then commonLen as bs + 1 else 0
  | _, _ => 0

/-- Length of the matching run starting at positions `i`, `j`, clipped to
the windows ending at `ahi`, `bhi`. -/
def runLen (a b : List Char) (i j ahi bhi : Nat) : Nat :=
  min (commonLen (a.drop i) (b.drop j)) (min (ahi - i) (bhi - j))

/-- One candidate step of `SequenceMatcher.find_longest_match`: keep the
first strictly longer run in (i, j) scan order. -/
def bestStep (a b : List Char) (ahi bhi : Nat) (best : Nat × Nat × Nat)
    (i j : Nat) : Nat × Nat × Nat :=
  let k := runLen a b i j ahi bhi
  if best.2.2 < k then (i, j, k) else best

/-- `SequenceMatcher.find_longest_match` (no junk, no autojunk for short
strings): the longest matching block in the window, earliest in `a` then
earliest in `b` on ties. -/
def findLongestMatch (a b : List Char) (alo ahi blo bhi : Nat) :
    Nat × Nat × Nat :=
  (List.range' alo (ahi - alo)).foldl
    (fun best i =>
      (List.range' blo (bhi - blo)).foldl
        (fun best j => bestStep a b ahi bhi best i j) best)
    (alo, blo, 0)

/-- Total size of all matching blocks
(`SequenceMatcher.get_matching_blocks`): recurse left and right of the
longest match.  The fuel argument bounds the recursion depth; the sum of
the window widths shrinks at every call, so any fuel above it is enough. -/
def matchTotal (a b : List Char) : Nat → Nat × Nat → Nat × Nat → Nat
  | 0, _, _ => 0
  | fuel + 1, (alo, ahi), (blo, bhi) =>
    let r := findLongestMatch a b alo ahi blo bhi
    if r.2.2 = 0 then 0
    else
      r.2.2 + matchTotal a b fuel (alo, r.1) (blo, r.2.1)
        + matchTotal a b fuel (r.1 + r.2.2, ahi) (r.2.1 + r.2.2, bhi)

/-- `SequenceMatcher.ratio()` with `a`, `b` as sequences, kept as the
exact fraction numerator/denominator pair `(2*M, la+lb)` (and `(1, 1)` for
two empty strings, since difflib returns 1.0 there); difflib computes the
float `2.0*M/(la+lb)`, whose comparisons against the cutoff and between
candidates agree with the exact-fraction comparisons for all realistic
string lengths. -/
def ratioND (a b : List Char) : Nat × Nat :=
  let T := a.length + b.length
  if T = 0 then (1, 1)
  else (2 * matchTotal a b (T + 1) (0, a.length) (0, b.length), T)

/-- The similarity ratio as an exact rational (statement-level view of
`ratioND`). -/
def simRatio (a b : List Char) : ℚ := ((ratioND a b).1 : ℚ) / ((ratioND a b).2 : ℚ)

/-- Python tuple `<` on (ratio, name) pairs, as `heapq.nlargest` compares
them; the ratio fractions are compared by cross-multiplication (both
denominators are positive). -/
def pairLt (p q : (Nat × Nat) × List Char) : Bool :=
  decide (p.1.1 * q.1.2 < q.1.1 * p.1.2) ||
    (decide (p.1.1 * q.1.2 = q.1.1 * p.1.2) && lexLt p.2 q.2)

/-- Insertion into a descending sorted list of (ratio, name) pairs. -/
def insertDesc (x : (Nat × Nat) × List Char) :
    List ((Nat × Nat) × List Char) → List ((Nat × Nat) × List Char)
  | [] => [x]
  | y :: ys => if pairLt x y then y :: insertDesc x ys else x :: y :: ys

/-- Descending sort of (ratio, name) pairs (`heapq.nlargest` order). -/
def sortDesc (l : List ((Nat × Nat) × List Char)) :
    List ((Nat × Nat) × List Char) :=
  l.foldr insertDesc []

/-- `difflib.get_close_matches(word, possibilities, n=10, cutoff=0.6)`:
keep the possibilities whose ratio against `word` is at least 0.6 (as a
fraction: `3 * den <= 5 * num`), then the 10 largest by (ratio, string) in
descending order. -/
def getCloseMatches (word : List Char) (poss : List (List Char)) :
    List (List Char) :=
  let scored := poss.filterMap (fun x =>
    let r := ratioND x word
    if 3 * r.2 ≤ 5 * r.1 then some (r, x) else none)
  ((sortDesc scored).take 10).map Prod.snd

/-- `postcode.replace(' ', '').upper()` from the corrector's filters. -/
def cleanPcFilter (p : List Char) : List Char :=
  (p.filter (fun c => c ≠ ' ')).map pyUpperC

/-- The pc4 scope filter of `AddressCorrector.correct_city`: set only when
a postcode is given, is nonempty, and its cleaned form starts with 4
digits. -/
def pc4Filter (pc : Option (List Char)) : Option (List Char) :=
  match pc with
  | none => none
  | some p =>
    if p = [] then none
    else
      let clean := cleanPcFilter p
      if 4 ≤ clean.length ∧ (clean.take 4).all Char.isDigit then
        some (clean.take 4)
      else none

/-- The pc6 scope filter of `AddressCorrector.correct_street`: set only
when a postcode is given, is nonempty, and its cleaned form is exactly 4
digits followed by 2 letters. -/
def pc6Filter (pc : Option (List Char)) : Option (List Char) :=
  match pc with
  | none => none
  | some p =>
    if p = [] then none
    else
      let clean := cleanPcFilter p
      if clean.length = 6 ∧ (clean.take 4).all Char.isDigit ∧
          (clean.drop 4).all pyIsAlpha then
        some clean
      else none

/-- `{e['street_id'] for e in entries if e.get('street_id')}`: the street
ids present in a pc6, excluding the falsy id 0. -/
def streetIdsInPc6 (data : RefData) (f : List Char) : List Int :=
  ((getAddressesByPc6 data f).filter (fun e => e.streetId ≠ 0)).map (·.streetId)

/-- The cities surviving the pc4 scope filter, in dictionary order. -/
def inScopeCities (data : RefData) (pc : Option (List Char)) :
    List (Int × List Char) :=
  data.cityMap.filter (fun p =>
    match pc4Filter pc with
    | none => true
    | some f => (citiesByPc4 data f).contains p.1)

/-- The streets surviving the pc6 scope filter, in dictionary order. -/
def inScopeStreets (data : RefData) (pc : Option (List Char)) :
    List (Int × List Char) :=
  data.streetMap.filter (fun p =>
    match pc6Filter pc with
    | none => true
    | some f => (streetIdsInPc6 data f).contains p.1)

/-- The two-phase body shared verbatim by `correct_city` and
`correct_street`: exact phase on normalized equality, returned sorted when
nonempty; otherwise fuzzy matches mapped back to original names,
de-duplicated and sorted. -/
def correctFrom (names : List (List Char)) (query : List Char) :
    List (List Char) :=
  let nq := normalizeName query
  let allNames := names.map (fun nm => (nm, normalizeName nm))
  let exact := (allNames.filter (fun p => p.2 = nq)).map Prod.fst
  if exact ≠ [] then sortAsc exact.dedup
  else
    let fuzzy := getCloseMatches nq (allNames.map Prod.snd)
    let results := (allNames.filter (fun p => fuzzy.contains p.2)).map Prod.fst
    sortAsc results.dedup

/-- `AddressCorrector.correct_city`. -/
def correctCity (data : RefData) (city : List Char) (pc : Option (List Char)) :
    List (List Char) :=
  correctFrom ((inScopeCities data pc).map Prod.snd) city

/-- `AddressCorrector.correct_street`. -/
def correctStreet (data : RefData) (street : List Char)
    (pc : Option (List Char)) : List (List Char) :=
  correctFrom ((inScopeStreets data pc).map Prod.snd) street

/-- Modelled from the spec: the `AddressValidator` class is imported by
`address.py` but absent from the repository sources; its `validate`
method is modelled from spec section 4.3.  Step 1 fetches the entries for
the address pc6 (through the loader accessor, which upper-cases the key)
and fails on empty; step 2 keeps the entries whose street id resolves to a
name normalizing equal to the address street name; step 3 finds an entry
among them whose inclusive range contains the house number; step 4 checks
that entry's city id against the address city. -/
def isValid (data : RefData) (a : Address) : Bool :=
  let entries := getAddressesByPc6 data a.pc6
  match entries with
  | [] => false
  | _ =>
    let sm := entries.filter (fun e =>
      match lookupId data.streetMap e.streetId with
      | some nm => decide (normalizeName nm = normalizeName a.streetName)
      | none => false)
    match sm with
    | [] => false
    | _ =>
      match sm.find? (fun e =>
          decide (e.hnrFrom ≤ a.houseNumber ∧ a.houseNumber ≤ e.hnrTo)) with
      | none => false
      | some e =>
        match lookupId data.cityMap e.cityId with
        | some cn => decide (normalizeName cn = normalizeName a.city)
        | none => false

/-- `DutchAddressHandler.validate`: construct the Address from the typed
components and evaluate the validator on it. -/
def handlerValidate (data : RefData) (s : List Char) (n : Int)
    (e p c : List Char) : Bool :=
  isValid data (mkAddress s n e p c)

/-- No two adjacent whitespace characters (the shape of fields that survive
the two-line grammar's whitespace collapsing unchanged). -/
def noTwoAdjWs : List Char → Bool
  | [] => true
  | [_] => true
  | c1 :: c2 :: rest => !(pyIsSpace c1 && pyIsSpace c2) && noTwoAdjWs (c2 :: rest)

/-- Ascending lexicographic order (no later element below an earlier one),
the order of Python `sorted` output. -/
def StrSorted (l : List (List Char)) : Prop :=
  List.Pairwise (fun a b => lexLt b a = false) l

/-- The fields of an Address contain no characters illegal in the two-line
grammar: the street is nonempty, strip-stable and newline-free; the
extension is letters only and upper-case; the house number is
non-negative; postcode and city are nonempty, strip-stable, free of
adjacent whitespace pairs, and the postcode is stored in its normalized
form. -/
def linesLegal (a : Address) : Prop :=
  a.streetName ≠ [] ∧ pyStrip a.streetName = a.streetName ∧
  '\n' ∉ a.streetName ∧
  a.houseNumberExtension.all Char.isAlpha = true ∧
  a.houseNumberExtension.map pyUpperC = a.houseNumberExtension ∧
  0 ≤ a.houseNumber ∧
  normalizePostcode a.postcode = a.postcode ∧
  a.postcode ≠ [] ∧ pyStrip a.postcode = a.postcode ∧
  noTwoAdjWs a.postcode = true ∧
  a.city ≠ [] ∧ pyStrip a.city = a.city ∧ noTwoAdjWs a.city = true

/-- The entries stored in the built pc6 index under exactly the given key
(the claim's notion of "indexed under that pc6"). -/
def indexedUnder (data : RefData) (key : List Char) : List HnrEntry :=
  data.hnrEntries.filter (fun e => e.pc6 = key)

/-- Reference data used to exhibit the fuzzy-phase behaviour of
`correct_city`: eleven city names, ten of which share five normalized
forms pairwise, plus one higher-ratio name. -/
def cexCityData : RefData :=
  { cityMap := [(1, cs "aaab.1"), (2, cs "aaab.2"), (3, cs "aaab.3"),
                (4, cs "aaab.4"), (5, cs "aaab.5"),
                (11, cs "aaab-1"), (12, cs "aaab-2"), (13, cs "aaab-3"),
                (14, cs "aaab-4"), (15, cs "aaab-5"), (20, cs "aaabz")],
    streetMap := [], hnrEntries := [] }

/-- Reference data containing one entry whose stored pc6 key is
lower-case. -/
def cexRangeData : RefData :=
  { cityMap := [], streetMap := [],
    hnrEntries := [⟨cs "1234ab", 1, 5, 7, 9⟩] }

/-- Small reference data mirroring the repository's test fixtures. -/
def amersfoortData : RefData :=
  { cityMap := [(1000, cs "AMSTERDAM"), (3800, cs "AMERSFOORT"),
                (3811, cs "AMERSFOORT")],
    streetMap := [(12345, cs "SMALLEPAD"), (12346, cs "KALVERSTRAAT")],
    hnrEntries := [⟨cs "3811MG", 30, 30, 12345, 3811⟩,
                   ⟨cs "3811MG", 31, 50, 12345, 3811⟩,
                   ⟨cs "1012PA", 1, 100, 12346, 1000⟩] }

/-- Empty reference data. -/
def emptyData : RefData := { cityMap := [], streetMap := [], hnrEntries := [] }

/-! ### Character-level lemmas -/

theorem char_toNat_ofNat {n : Nat} (h : n < 55296) : (Char.ofNat n).toNat = n := by
  have hv : n.isValidChar := Or.inl h
  simp [Char.ofNat, hv, Char.ofNatAux, Char.toNat, UInt32.toNat, BitVec.toNat_ofNatLt]

theorem char_eq_of_toNat {a b : Char} (h : a.toNat = b.toNat) : a = b :=
  Char.eq_of_val_eq (UInt32.toNat.inj h)

theorem toLower_of_not_upper {c : Char} (h : ¬(65 ≤ c.toNat ∧ c.toNat ≤ 90)) :
    c.toLower = c := by
  unfold Char.toLower
  rw [if_neg]
  exact h

theorem toLower_toNat_of_upper {c : Char} (h1 : 65 ≤ c.toNat) (h2 : c.toNat ≤ 90) :
    c.toLower.toNat = c.toNat + 32 := by
  unfold Char.toLower
  rw [if_pos ⟨h1, h2⟩]
  exact char_toNat_ofNat (by omega)

theorem toUpper_of_not_lower {c : Char} (h : ¬(97 ≤ c.toNat ∧ c.toNat ≤ 122)) :
    c.toUpper = c := by
  unfold Char.toUpper
  rw [if_neg]
  exact h

theorem toUpper_toNat_of_lower {c : Char} (h1 : 97 ≤ c.toNat) (h2 : c.toNat ≤ 122) :
    c.toUpper.toNat = c.toNat - 32 := by
  unfold Char.toUpper
  rw [if_pos ⟨h1, h2⟩]
  exact char_toNat_ofNat (by omega)

theorem pyLowerC_idem (c : Char) : pyLowerC (pyLowerC c) = pyLowerC c := by
  unfold pyLowerC
  by_cases h1 : c = 'Ø'
  · simp [h1]
  · by_cases h2 : c = 'Æ'
    · simp [h2]
    · rw [if_neg h1, if_neg h2]
      by_cases hu : 65 ≤ c.toNat ∧ c.toNat ≤ 90
      · have hv := toLower_toNat_of_upper hu.1 hu.2
        have hne1 : c.toLower ≠ 'Ø' := by
          intro he
          rw [he] at hv
          simp at hv
          omega
        have hne2 : c.toLower ≠ 'Æ' := by
          intro he
          rw [he] at hv
          simp at hv
          omega
        rw [if_neg hne1, if_neg hne2]
        apply toLower_of_not_upper
        omega
      · rw [toLower_of_not_upper hu, if_neg h1, if_neg h2, toLower_of_not_upper hu]

theorem pyUpperC_idem (c : Char) : pyUpperC (pyUpperC c) = pyUpperC c := by
  unfold pyUpperC
  by_cases h1 : c = 'ø'
  · simp [h1]
  · by_cases h2 : c = 'æ'
    · simp [h2]
    · rw [if_neg h1, if_neg h2]
      by_cases hu : 97 ≤ c.toNat ∧ c.toNat ≤ 122
      · have hv := toUpper_toNat_of_lower hu.1 hu.2
        have hne1 : c.toUpper ≠ 'ø' := by
          intro he
          rw [he] at hv
          simp at hv
          omega
        have hne2 : c.toUpper ≠ 'æ' := by
          intro he
          rw [he] at hv
          simp at hv
          omega
        rw [if_neg hne1, if_neg hne2]
        apply toUpper_of_not_lower
        omega
      · rw [toUpper_of_not_lower hu, if_neg h1, if_neg h2, toUpper_of_not_lower hu]

theorem nfkdChar_eq_self_iff {c : Char} :
    nfkdChar c = [c] ↔ (c ≠ 'é' ∧ c ≠ 'É' ∧ c ≠ 'ë' ∧ c ≠ 'Ë') := by
  constructor
  · intro h
    refine ⟨?_, ?_, ?_, ?_⟩ <;> intro he <;> rw [he] at h <;> revert h <;> decide
  · intro ⟨h1, h2, h3, h4⟩
    simp [nfkdChar, h1, h2, h3, h4]

theorem nfkd_out_fixed {c d : Char} (h : d ∈ nfkdChar c) : nfkdChar d = [d] := by
  unfold nfkdChar at h
  split at h
  · simp only [List.mem_cons, List.not_mem_nil, or_false] at h
    rcases h with h | h <;> subst h <;> decide
  · split at h
    · simp only [List.mem_cons, List.not_mem_nil, or_false] at h
      rcases h with h | h <;> subst h <;> decide
    · split at h
      · simp only [List.mem_cons, List.not_mem_nil, or_false] at h
        rcases h with h | h <;> subst h <;> decide
      · split at h
        · simp only [List.mem_cons, List.not_mem_nil, or_false] at h
          rcases h with h | h <;> subst h <;> decide
        · simp only [List.mem_cons, List.not_mem_nil, or_false] at h
          subst h
          rename_i h1 h2 h3 h4
          exact nfkdChar_eq_self_iff.mpr ⟨h1, h2, h3, h4⟩

theorem nfkd_lower_fixed {d : Char} (h : nfkdChar d = [d]) :
    nfkdChar (pyLowerC d) = [pyLowerC d] := by
  have hd := nfkdChar_eq_self_iff.mp h
  apply nfkdChar_eq_self_iff.mpr
  unfold pyLowerC
  by_cases h1 : d = 'Ø'
  · rw [if_pos h1]
    decide
  · by_cases h2 : d = 'Æ'
    · rw [if_neg h1, if_pos h2]
      decide
    · rw [if_neg h1, if_neg h2]
      by_cases hu : 65 ≤ d.toNat ∧ d.toNat ≤ 90
      · have hv := toLower_toNat_of_upper hu.1 hu.2
        refine ⟨?_, ?_, ?_, ?_⟩ <;> intro he <;> rw [he] at hv <;>
          simp at hv <;> omega
      · rw [toLower_of_not_upper hu]
        exact hd

/-! ### Whitespace-pipeline lemmas -/

theorem squeeze_mem {c : Char} : ∀ {l : List Char}, c ∈ squeezeWs l →
    c = ' ' ∨ (c ∈ l ∧ pyIsSpace c = false) := by
  intro l
  induction l using squeezeWs.induct with
  | case1 => intro h; simp [squeezeWs] at h
  | case2 d hd =>
    intro h
    simp [squeezeWs, hd] at h
    exact Or.inl h
  | case3 d hd =>
    intro h
    simp [squeezeWs, hd] at h
    subst h
    exact Or.inr ⟨List.mem_singleton.mpr rfl, by simpa using hd⟩
  | case4 c1 c2 rest h1 h2 ih =>
    intro h
    rw [squeezeWs, if_pos h1, if_pos h2] at h
    rcases ih h with h | ⟨hm, hs⟩
    · exact Or.inl h
    · exact Or.inr ⟨List.mem_cons_of_mem _ hm, hs⟩
  | case5 c1 c2 rest h1 h2 ih =>
    intro h
    rw [squeezeWs, if_pos h1, if_neg h2] at h
    rcases List.mem_cons.mp h with h | h
    · exact Or.inl h
    · rcases ih h with h | ⟨hm, hs⟩
      · exact Or.inl h
      · exact Or.inr ⟨List.mem_cons_of_mem _ hm, hs⟩
  | case6 c1 c2 rest h1 ih =>
    intro h
    rw [squeezeWs, if_neg h1] at h
    rcases List.mem_cons.mp h with h | h
    · subst h
      exact Or.inr ⟨List.mem_cons_self _ _, by simpa using h1⟩
    · rcases ih h with h | ⟨hm, hs⟩
      · exact Or.inl h
      · exact Or.inr ⟨List.mem_cons_of_mem _ hm, hs⟩

theorem squeeze_head_nonws {c : Char} {l : List Char} (h : pyIsSpace c = false) :
    (squeezeWs (c :: l)).head? = some c := by
  cases l with
  | nil => simp [squeezeWs, h]
  | cons c2 rest =>
    rw [squeezeWs, if_neg (by simp [h])]
    rfl

theorem squeeze_head_ws : ∀ {l : List Char} {c : Char}, l.head? = some c →
    pyIsSpace c = true → (squeezeWs l).head? = some ' ' := by
  intro l
  induction l using squeezeWs.induct with
  | case1 => intro c h _; cases h
  | case2 d hd =>
    intro c h _
    simp [squeezeWs, hd]
  | case3 d hd =>
    intro c h hc
    simp at h
    subst h
    simp [hc] at hd
  | case4 c1 c2 rest h1 h2 ih =>
    intro c h _
    rw [squeezeWs, if_pos h1, if_pos h2]
    exact ih rfl h2
  | case5 c1 c2 rest h1 h2 ih =>
    intro c h _
    rw [squeezeWs, if_pos h1, if_neg h2]
    rfl
  | case6 c1 c2 rest h1 ih =>
    intro c h hc
    simp at h
    rw [h] at h1
    simp [hc] at h1

theorem noTwoAdjWs_cons {a : Char} {l : List Char}
    (hh : ∀ x, l.head? = some x → (pyIsSpace a && pyIsSpace x) = false)
    (hl : noTwoAdjWs l = true) : noTwoAdjWs (a :: l) = true := by
  cases l with
  | nil => rfl
  | cons x xs =>
    rw [noTwoAdjWs]
    simp only [Bool.and_eq_true, bne_iff_ne]
    refine ⟨?_, hl⟩
    have := hh x rfl
    simp [this]

theorem noTwoAdjWs_tail {a : Char} {l : List Char}
    (h : noTwoAdjWs (a :: l) = true) : noTwoAdjWs l = true := by
  cases l with
  | nil => rfl
  | cons x xs =>
    simp only [noTwoAdjWs, Bool.and_eq_true] at h
    exact h.2

theorem squeeze_chain : ∀ (l : List Char), noTwoAdjWs (squeezeWs l) = true := by
  intro l
  induction l using squeezeWs.induct with
  | case1 => rfl
  | case2 d hd => simp [squeezeWs, hd]; rfl
  | case3 d hd => simp [squeezeWs, hd]; rfl
  | case4 c1 c2 rest h1 h2 ih =>
    rw [squeezeWs, if_pos h1, if_pos h2]
    exact ih
  | case5 c1 c2 rest h1 h2 ih =>
    rw [squeezeWs, if_pos h1, if_neg h2]
    apply noTwoAdjWs_cons ?_ ih
    intro x hx
    rw [squeeze_head_nonws (by simpa using h2)] at hx
    cases hx
    simp [(by simpa using h2 : pyIsSpace c2 = false)]
  | case6 c1 c2 rest h1 ih =>
    rw [squeezeWs, if_neg h1]
    apply noTwoAdjWs_cons ?_ ih
    intro x hx
    simp [(by simpa using h1 : pyIsSpace c1 = false)]

theorem squeeze_id : ∀ {l : List Char},
    (∀ c ∈ l, pyIsSpace c = true → c = ' ') → noTwoAdjWs l = true →
    squeezeWs l = l := by
  intro l
  induction l using squeezeWs.induct with
  | case1 => intro _ _; rfl
  | case2 d hd =>
    intro hws _
    rw [squeezeWs]
    rw [if_pos hd, hws d (List.mem_singleton.mpr rfl) hd]
  | case3 d hd =>
    intro _ _
    rw [squeezeWs, if_neg hd]
  | case4 c1 c2 rest h1 h2 ih =>
    intro hws hch
    rw [noTwoAdjWs] at hch
    simp [h1, h2] at hch
  | case5 c1 c2 rest h1 h2 ih =>
    intro hws hch
    rw [squeezeWs, if_pos h1, if_neg h2]
    rw [ih (fun c hc => hws c (List.mem_cons_of_mem _ hc)) (noTwoAdjWs_tail hch)]
    rw [hws c1 (List.mem_cons_self _ _) h1]
  | case6 c1 c2 rest h1 ih =>
    intro hws hch
    rw [squeezeWs, if_neg h1]
    rw [ih (fun c hc => hws c (List.mem_cons_of_mem _ hc)) (noTwoAdjWs_tail hch)]

theorem dropWhile_head_false {p : Char → Bool} :
    ∀ {l : List Char} {c : Char}, (l.dropWhile p).head? = some c → p c = false := by
  intro l
  induction l with
  | nil => intro c h; cases h
  | cons a t ih =>
    intro c h
    rw [List.dropWhile_cons] at h
    by_cases ha : p a
    · rw [if_pos ha] at h
      exact ih h
    · rw [if_neg ha] at h
      cases h
      simpa using ha

theorem dropWhile_eq_self_of_head {p : Char → Bool} {l : List Char}
    (h : ∀ c, l.head? = some c → p c = false) : l.dropWhile p = l := by
  cases l with
  | nil => rfl
  | cons a t =>
    rw [List.dropWhile_cons, if_neg]
    simp [h a rfl]

theorem mem_pyStrip {c : Char} {l : List Char} (h : c ∈ pyStrip l) : c ∈ l := by
  unfold pyStrip dropTrailWs at h
  rw [List.mem_reverse] at h
  have h1 := (List.dropWhile_sublist _).mem h
  rw [List.mem_reverse] at h1
  exact (List.dropWhile_sublist _).mem h1

theorem head?_of_pref {l1 l2 : List Char} (h : l1 <+: l2) (hne : l1 ≠ []) :
    l1.head? = l2.head? := by
  rcases h with ⟨t, rfl⟩
  cases l1 with
  | nil => exact absurd rfl hne
  | cons a u => rfl

theorem dropTrailWs_pref (m : List Char) : dropTrailWs m <+: m := by
  unfold dropTrailWs
  have hsuf : m.reverse.dropWhile pyIsSpace <:+ m.reverse := List.dropWhile_suffix _
  have := List.reverse_prefix.mpr hsuf
  rwa [List.reverse_reverse] at this

theorem pyStrip_head_not_ws {l : List Char} {c : Char}
    (h : (pyStrip l).head? = some c) : pyIsSpace c = false := by
  unfold pyStrip at h
  have hne : dropTrailWs (l.dropWhile pyIsSpace) ≠ [] := by
    intro he
    rw [he] at h
    cases h
  rw [head?_of_pref (dropTrailWs_pref _) hne] at h
  exact dropWhile_head_false h

theorem pyStrip_last_not_ws {l : List Char} {c : Char}
    (h : (pyStrip l).getLast? = some c) : pyIsSpace c = false := by
  unfold pyStrip dropTrailWs at h
  rw [List.getLast?_reverse] at h
  exact dropWhile_head_false h

theorem pyStrip_eq_self {l : List Char}
    (hh : ∀ c, l.head? = some c → pyIsSpace c = false)
    (hl : ∀ c, l.getLast? = some c → pyIsSpace c = false) : pyStrip l = l := by
  unfold pyStrip dropTrailWs
  rw [dropWhile_eq_self_of_head hh]
  rw [dropWhile_eq_self_of_head (by simpa [List.head?_reverse] using hl)]
  exact List.reverse_reverse l

theorem noTwoAdjWs_dropWhile {p : Char → Bool} :
    ∀ {l : List Char}, noTwoAdjWs l = true → noTwoAdjWs (l.dropWhile p) = true := by
  intro l
  induction l with
  | nil => intro h; exact h
  | cons a t ih =>
    intro h
    rw [List.dropWhile_cons]
    by_cases ha : p a
    · rw [if_pos ha]
      exact ih (noTwoAdjWs_tail h)
    · rw [if_neg ha]
      exact h

theorem noTwoAdjWs_iff_chain {l : List Char} :
    noTwoAdjWs l = true ↔
      List.Chain' (fun a b => ¬(pyIsSpace a = true ∧ pyIsSpace b = true)) l := by
  induction l with
  | nil => simp [noTwoAdjWs]
  | cons a t ih =>
    cases t with
    | nil => simp [noTwoAdjWs]
    | cons b u =>
      rw [noTwoAdjWs, List.chain'_cons, Bool.and_eq_true, ← ih]
      constructor
      · intro ⟨h1, h2⟩
        refine ⟨?_, h2⟩
        intro ⟨ha, hb⟩
        simp [ha, hb] at h1
      · intro ⟨h1, h2⟩
        refine ⟨?_, h2⟩
        cases hha : pyIsSpace a with
        | false => simp [hha]
        | true =>
          cases hhb : pyIsSpace b with
          | false => simp [hha, hhb]
          | true => exact absurd ⟨hha, hhb⟩ h1

theorem noTwoAdjWs_reverse {l : List Char} (h : noTwoAdjWs l = true) :
    noTwoAdjWs l.reverse = true := by
  rw [noTwoAdjWs_iff_chain] at h ⊢
  rw [List.chain'_reverse]
  apply h.imp
  intro a b hab ⟨h1, h2⟩
  exact hab ⟨h2, h1⟩

theorem noTwoAdjWs_pyStrip {l : List Char} (h : noTwoAdjWs l = true) :
    noTwoAdjWs (pyStrip l) = true := by
  unfold pyStrip dropTrailWs
  exact noTwoAdjWs_reverse (noTwoAdjWs_dropWhile (noTwoAdjWs_reverse (noTwoAdjWs_dropWhile h)))

theorem map_id_of_mem {f : Char → Char} :
    ∀ {l : List Char}, (∀ c ∈ l, f c = c) → l.map f = l := by
  intro l
  induction l with
  | nil => intro _; rfl
  | cons a t ih =>
    intro h
    rw [List.map_cons, h a (List.mem_cons_self _ _), ih]
    intro c hc
    exact h c (List.mem_cons_of_mem _ hc)

theorem nfkdStr_cons (c : Char) (l : List Char) :
    nfkdStr (c :: l) = nfkdChar c ++ nfkdStr l := by
  simp [nfkdStr]

theorem nfkdStr_fixed : ∀ {l : List Char}, (∀ c ∈ l, nfkdChar c = [c]) →
    nfkdStr l = l := by
  intro l
  induction l with
  | nil => intro _; rfl
  | cons a t ih =>
    intro h
    rw [nfkdStr_cons, h a (List.mem_cons_self _ _), ih]
    · rfl
    · intro c hc
      exact h c (List.mem_cons_of_mem _ hc)

theorem mem_nfkdStr {l : List Char} {e : Char} (h : e ∈ nfkdStr l) :
    ∃ f ∈ l, e ∈ nfkdChar f := by
  unfold nfkdStr at h
  rw [List.mem_flatten] at h
  rcases h with ⟨x, hx, he⟩
  rw [List.mem_map] at hx
  rcases hx with ⟨f, hf, rfl⟩
  exact ⟨f, hf, he⟩

theorem norm_out_mem {l : List Char} {c : Char} (h : c ∈ normalizeName l) :
    c = ' ' ∨ (isWordChar c = true ∧ nfkdChar c = [c] ∧ pyLowerC c = c ∧
      pyIsSpace c = false) := by
  unfold normalizeName at h
  have h1 := mem_pyStrip h
  rcases squeeze_mem h1 with h2 | ⟨h2, hns⟩
  · exact Or.inl h2
  · rw [List.mem_map] at h2
    rcases h2 with ⟨d, hd, hrep⟩
    unfold replaceChar at hrep
    by_cases hk : isWordChar d || pyIsSpace d
    · rw [if_pos hk] at hrep
      subst hrep
      rcases Bool.or_eq_true _ _ ▸ hk with hw | hs
      · rw [List.mem_map] at hd
        rcases hd with ⟨e, he, hlow⟩
        rcases mem_nfkdStr he with ⟨f, _, hef⟩
        have hfix := nfkd_out_fixed hef
        have hdfix : nfkdChar d = [d] := hlow ▸ nfkd_lower_fixed hfix
        have hdlow : pyLowerC d = d := by
          rw [← hlow, pyLowerC_idem]
        exact Or.inr ⟨hw, hdfix, hdlow, hns⟩
      · rw [hs] at hns
        cases hns
    · rw [if_neg hk] at hrep
      exact Or.inl hrep.symm

theorem norm_noTwoAdjWs (l : List Char) : noTwoAdjWs (normalizeName l) = true := by
  unfold normalizeName
  exact noTwoAdjWs_pyStrip (squeeze_chain _)

/-! ### Idempotence of name normalization (C8) and its character set (C9) -/

/-- C8: Name normalization is idempotent: for every string x,
normalize(normalize(x)) equals normalize(x). -/
theorem claim8_normalize_idempotent (x : List Char) :
    normalizeName (normalizeName x) = normalizeName x := by
  have hmem := fun {c : Char} (hc : c ∈ normalizeName x) => norm_out_mem hc
  have h1 : nfkdStr (normalizeName x) = normalizeName x := by
    apply nfkdStr_fixed
    intro c hc
    rcases hmem hc with rfl | ⟨_, hfix, _, _⟩
    · decide
    · exact hfix
  have h2 : (normalizeName x).map pyLowerC = normalizeName x := by
    apply map_id_of_mem
    intro c hc
    rcases hmem hc with rfl | ⟨_, _, hlow, _⟩
    · decide
    · exact hlow
  have h3 : (normalizeName x).map replaceChar = normalizeName x := by
    apply map_id_of_mem
    intro c hc
    rcases hmem hc with rfl | ⟨hw, _, _, _⟩
    · decide
    · unfold replaceChar
      rw [if_pos]
      simp [hw]
  have h4 : squeezeWs (normalizeName x) = normalizeName x := by
    apply squeeze_id
    · intro c hc hwsc
      rcases hmem hc with rfl | ⟨_, _, _, hns⟩
      · rfl
      · rw [hwsc] at hns
        cases hns
    · exact norm_noTwoAdjWs x
  have h5 : pyStrip (normalizeName x) = normalizeName x := by
    apply pyStrip_eq_self
    · intro c hc
      unfold normalizeName at hc
      exact pyStrip_head_not_ws hc
    · intro c hc
      unfold normalizeName at hc
      exact pyStrip_last_not_ws hc
  conv_lhs => rw [normalizeName]
  rw [h1, h2, h3, h4, h5]

/-- C9 counterexample: the underscore is neither a letter, a digit, nor
whitespace, yet it survives normalization (Python's regex class `\w`
includes it), so it is not replaced by a space. -/
theorem claim9_counterexample :
    normalizeName (cs "a_b") = cs "a_b" ∧ '_' ∈ normalizeName (cs "a_b") ∧
      ¬(pyIsAlpha '_' = true ∨ '_'.isDigit = true ∨ pyIsSpace '_' = true) := by
  refine ⟨by decide, by decide, by decide⟩

/-- C9 amended: after decomposition and lower-casing, every character that
is neither a word character (letter, digit, or underscore) nor whitespace
is replaced by a single space, and whitespace is collapsed and trimmed;
hence every character of the normalized output is a word character or a
space.  Hyphens and apostrophes do not survive, but the underscore, being
a word character for the regex, does. -/
theorem claim9_normalized_chars (x : List Char) (c : Char)
    (h : c ∈ normalizeName x) : isWordChar c = true ∨ c = ' ' := by
  rcases norm_out_mem h with rfl | ⟨hw, _, _, _⟩
  · exact Or.inr rfl
  · exact Or.inl hw

/-- Witness for the C9 amended theorem at a concrete input: the hyphen of
"a-b" is gone and both remaining characters are word characters. -/
theorem claim9_witness :
    ('a' ∈ normalizeName (cs "a-b") ∧
      (isWordChar 'a' = true ∨ 'a' = ' ')) ∧
      '-' ∉ normalizeName (cs "a-b") :=
  ⟨⟨by decide, claim9_normalized_chars (cs "a-b") 'a' (by decide)⟩, by decide⟩

/-! ### Postcode normalization (C4) -/

theorem cleanedPc_mem_upper_fixed {l : List Char} {c : Char}
    (h : c ∈ cleanedPc l) : pyUpperC c = c ∧ c ≠ ' ' := by
  unfold cleanedPc at h
  have hne := List.of_mem_filter h
  have hm := List.mem_of_mem_filter h
  rw [List.mem_map] at hm
  rcases hm with ⟨d, _, rfl⟩
  exact ⟨pyUpperC_idem d, by simpa using hne⟩

theorem cleanedPc_of_fixed {l : List Char}
    (h : ∀ c ∈ l, pyUpperC c = c ∧ c ≠ ' ') : cleanedPc l = l := by
  unfold cleanedPc
  rw [map_id_of_mem (fun c hc => (h c hc).1)]
  apply List.filter_eq_self.mpr
  intro c hc
  simpa using (h c hc).2

/-- Helper: `_normalize_postcode` is idempotent (needed for the from_lines
round trip, since construction re-normalizes the parsed postcode). -/
theorem normalizePostcode_idem (l : List Char) :
    normalizePostcode (normalizePostcode l) = normalizePostcode l := by
  by_cases hnil : l = []
  · subst hnil
    rfl
  · unfold normalizePostcode
    rw [if_neg hnil]
    by_cases hshape : (cleanedPc l).length = 6 ∧
        ((cleanedPc l).take 4).all Char.isDigit ∧
        ((cleanedPc l).drop 4).all pyIsAlpha
    · rw [if_pos hshape]
      have htne : (cleanedPc l).take 4 ++ ' ' :: (cleanedPc l).drop 4 ≠ [] := by
        simp
      rw [if_neg htne]
      have happ : ∀ (x y : List Char), cleanedPc (x ++ y) = cleanedPc x ++ cleanedPc y := by
        intro x y
        unfold cleanedPc
        rw [List.map_append, List.filter_append]
      have hsp : ∀ (y : List Char), cleanedPc (' ' :: y) = cleanedPc y := by
        intro y
        unfold cleanedPc
        rw [List.map_cons]
        have : pyUpperC ' ' = ' ' := by decide
        rw [this, List.filter_cons]
        simp
      have hfix1 : cleanedPc ((cleanedPc l).take 4) = (cleanedPc l).take 4 := by
        apply cleanedPc_of_fixed
        intro c hc
        exact cleanedPc_mem_upper_fixed (List.mem_of_mem_take hc)
      have hfix2 : cleanedPc ((cleanedPc l).drop 4) = (cleanedPc l).drop 4 := by
        apply cleanedPc_of_fixed
        intro c hc
        exact cleanedPc_mem_upper_fixed (List.mem_of_mem_drop hc)
      have hclean : cleanedPc ((cleanedPc l).take 4 ++ ' ' :: (cleanedPc l).drop 4)
          = cleanedPc l := by
        rw [happ, hsp, hfix1, hfix2, List.take_append_drop]
      rw [hclean, if_pos hshape]
    · rw [if_neg hshape]
      by_cases hune : cleanedPc l = []
      · rw [hune]
        rfl
      · rw [if_neg hune]
        have hclean : cleanedPc (cleanedPc l) = cleanedPc l :=
          cleanedPc_of_fixed (fun c hc => cleanedPc_mem_upper_fixed hc)
        rw [hclean, if_neg hshape]

/-- C4 counterexample: for the input "1 2 3" the stripped input is
"1 2 3", which is not 6 alphanumeric characters in the 4-digit/2-letter
shape, so the claim requires the stored postcode to be the trimmed,
upper-cased input "1 2 3" kept otherwise unchanged; the code instead
removes every space and stores "123". -/
theorem claim4_counterexample :
    normalizePostcode (cs "1 2 3") = cs "123" ∧
      pyStrip ((cs "1 2 3").map pyUpperC) = cs "1 2 3" ∧
      cs "123" ≠ cs "1 2 3" := by
  refine ⟨by decide, by decide, by decide⟩

/-- C4 amended: construction upper-cases the postcode and removes every
space character (interior ones included, not a mere trim); if what remains
is exactly 4 digits followed by 2 letters it is stored canonically as
"DDDD XX", and otherwise the upper-cased, space-stripped string is stored
unchanged (the empty input stores the empty string). -/
theorem claim4_postcode_normalization (s : List Char) :
    ((cleanedPc s).length = 6 ∧ ((cleanedPc s).take 4).all Char.isDigit ∧
        ((cleanedPc s).drop 4).all pyIsAlpha →
      normalizePostcode s = (cleanedPc s).take 4 ++ ' ' :: (cleanedPc s).drop 4) ∧
    (¬((cleanedPc s).length = 6 ∧ ((cleanedPc s).take 4).all Char.isDigit ∧
        ((cleanedPc s).drop 4).all pyIsAlpha) →
      normalizePostcode s = cleanedPc s) := by
  constructor
  · intro hshape
    by_cases hnil : s = []
    · subst hnil
      exact absurd hshape.1 (by decide)
    · unfold normalizePostcode
      rw [if_neg hnil, if_pos hshape]
  · intro hshape
    by_cases hnil : s = []
    · subst hnil
      rfl
    · unfold normalizePostcode
      rw [if_neg hnil, if_neg hshape]

/-- Witness for the C4 amended theorem: the canonical branch at "1234ab"
and the raw branch at "12345". -/
theorem claim4_witness :
    normalizePostcode (cs "1234ab") = cs "1234 AB" ∧
      normalizePostcode (cs "12345") = cs "12345" := by
  constructor
  · have h := (claim4_postcode_normalization (cs "1234ab")).1 (by decide)
    rw [h]
    decide
  · have h := (claim4_postcode_normalization (cs "12345")).2 (by decide)
    rw [h]
    decide

/-! ### Lexicographic order and sorting lemmas -/

theorem lexLt_irrefl : ∀ (a : List Char), lexLt a a = false := by
  intro a
  induction a with
  | nil => rfl
  | cons c t ih =>
    rw [lexLt]
    simp [ih]

theorem lexLt_trans : ∀ {a b c : List Char},
    lexLt a b = true → lexLt b c = true → lexLt a c = true := by
  intro a
  induction a with
  | nil =>
    intro b c hab hbc
    cases c with
    | nil =>
      cases b with
      | nil => cases hab
      | cons y ys => cases hbc
    | cons z zs => rfl
  | cons x xs ih =>
    intro b c hab hbc
    cases b with
    | nil => cases hab
    | cons y ys =>
      cases c with
      | nil => cases hbc
      | cons z zs =>
        rw [lexLt] at hab hbc ⊢
        simp only [Bool.or_eq_true, Bool.and_eq_true, decide_eq_true_eq] at hab hbc ⊢
        rcases hab with hab | ⟨hab, hab2⟩
        · rcases hbc with hbc | ⟨hbc, hbc2⟩
          · exact Or.inl (lt_trans hab hbc)
          · exact Or.inl (hbc ▸ hab)
        · rcases hbc with hbc | ⟨hbc, hbc2⟩
          · exact Or.inl (hab ▸ hbc)
          · exact Or.inr ⟨hab.trans hbc, ih hab2 hbc2⟩

theorem lexLt_eq_of_not : ∀ {a b : List Char},
    lexLt a b = false → lexLt b a = false → a = b := by
  intro a
  induction a with
  | nil =>
    intro b hab _
    cases b with
    | nil => rfl
    | cons y ys => cases hab
  | cons x xs ih =>
    intro b hab hba
    cases b with
    | nil => cases hba
    | cons y ys =>
      rw [lexLt] at hab hba
      simp only [Bool.or_eq_false_iff, Bool.and_eq_false_iff,
        decide_eq_false_iff_not] at hab hba
      rcases hab with ⟨hab1, hab2⟩
      rcases hba with ⟨hba1, hba2⟩
      have hxy : x = y := le_antisymm (not_lt.mp hba1) (not_lt.mp hab1)
      subst hxy
      rcases hab2 with h | h
      · exact absurd rfl h
      · rcases hba2 with h2 | h2
        · exact absurd rfl h2
        · rw [ih h h2]

theorem lexLt_asymm {a b : List Char} (h : lexLt a b = true) :
    lexLt b a = false := by
  by_contra hc
  have hba : lexLt b a = true := by
    cases hh : lexLt b a
    · exact absurd hh hc
    · rfl
  have := lexLt_trans h hba
  rw [lexLt_irrefl] at this
  cases this

theorem lexNotLt_trans {a b c : List Char} (hab : lexLt b a = false)
    (hbc : lexLt c b = false) : lexLt c a = false := by
  by_contra hc
  have hca : lexLt c a = true := by
    cases hh : lexLt c a
    · exact absurd hh hc
    · rfl
  by_cases he : a = b
  · subst he
    rw [hca] at hbc
    cases hbc
  · by_cases he2 : b = c
    · subst he2
      rw [hca] at hab
      cases hab
    · have hab' : lexLt a b = true := by
        cases hh : lexLt a b
        · exact absurd (lexLt_eq_of_not hh hab) he
        · rfl
      have := lexLt_trans hca hab'
      have hcb : lexLt c b = true := this
      rw [hcb] at hbc
      cases hbc

theorem mem_insertAsc {x y : List Char} :
    ∀ {l : List (List Char)}, y ∈ insertAsc x l ↔ y = x ∨ y ∈ l := by
  intro l
  induction l with
  | nil => simp [insertAsc]
  | cons a t ih =>
    rw [insertAsc]
    by_cases h : lexLt a x
    · rw [if_pos h]
      simp only [List.mem_cons, ih]
      tauto
    · rw [if_neg h]
      simp only [List.mem_cons]

theorem mem_sortAsc {y : List Char} :
    ∀ {l : List (List Char)}, y ∈ sortAsc l ↔ y ∈ l := by
  intro l
  induction l with
  | nil => simp [sortAsc]
  | cons a t ih =>
    show y ∈ insertAsc a (sortAsc t) ↔ _
    rw [mem_insertAsc]
    simp only [List.mem_cons, ih]

theorem sorted_insertAsc {x : List Char} :
    ∀ {l : List (List Char)}, StrSorted l → StrSorted (insertAsc x l) := by
  intro l
  induction l with
  | nil =>
    intro _
    exact List.pairwise_singleton _ _
  | cons a t ih =>
    intro hs
    unfold StrSorted at hs ⊢
    rw [List.pairwise_cons] at hs
    rw [insertAsc]
    by_cases h : lexLt a x
    · rw [if_pos h]
      rw [List.pairwise_cons]
      constructor
      · intro b hb
        rcases mem_insertAsc.mp hb with rfl | hb
        · exact lexLt_asymm h
        · exact hs.1 b hb
      · exact ih hs.2
    · rw [if_neg h]
      rw [List.pairwise_cons]
      constructor
      · intro b hb
        rcases List.mem_cons.mp hb with rfl | hb
        · simpa using h
        · exact lexNotLt_trans (by simpa using h) (hs.1 b hb)
      · exact List.pairwise_cons.mpr hs
    
theorem sorted_sortAsc : ∀ (l : List (List Char)), StrSorted (sortAsc l) := by
  intro l
  induction l with
  | nil => exact List.Pairwise.nil
  | cons a t ih => exact sorted_insertAsc ih

/-! ### Corrector lemmas -/

theorem pair_filter_map (names : List (List Char)) (p : List Char → Bool) :
    (((names.map (fun nm => (nm, normalizeName nm))).filter
        (fun pr => p pr.2)).map Prod.fst) =
      names.filter (fun nm => p (normalizeName nm)) := by
  rw [List.filter_map, List.map_map]
  have : (Prod.fst ∘ fun nm => (nm, normalizeName nm)) = fun nm : List Char => nm := by
    funext nm
    rfl
  rw [this, List.map_id']
  rfl

theorem pair_snd_map (names : List (List Char)) :
    ((names.map (fun nm => (nm, normalizeName nm))).map Prod.snd) =
      names.map normalizeName := by
  rw [List.map_map]
  rfl

theorem mem_insertDesc {x y : (Nat × Nat) × List Char} :
    ∀ {l : List ((Nat × Nat) × List Char)}, y ∈ insertDesc x l ↔ y = x ∨ y ∈ l := by
  intro l
  induction l with
  | nil => simp [insertDesc]
  | cons a t ih =>
    rw [insertDesc]
    by_cases h : pairLt x a
    · rw [if_pos h]
      simp only [List.mem_cons, ih]
      tauto
    · rw [if_neg h]
      simp only [List.mem_cons]

theorem mem_sortDesc {y : (Nat × Nat) × List Char} :
    ∀ {l : List ((Nat × Nat) × List Char)}, y ∈ sortDesc l ↔ y ∈ l := by
  intro l
  induction l with
  | nil => simp [sortDesc]
  | cons a t ih =>
    show y ∈ insertDesc a (sortDesc t) ↔ _
    rw [mem_insertDesc]
    simp only [List.mem_cons, ih]

theorem getCloseMatches_length (word : List Char) (poss : List (List Char)) :
    (getCloseMatches word poss).length ≤ 10 := by
  unfold getCloseMatches
  rw [List.length_map]
  exact (List.length_take_le _ _)

theorem ratioND_den_pos (a b : List Char) : 0 < (ratioND a b).2 := by
  unfold ratioND
  by_cases h : a.length + b.length = 0
  · rw [if_pos h]
    exact Nat.one_pos
  · rw [if_neg h]
    exact Nat.pos_of_ne_zero h

/-- Bridge between the fraction-pair cutoff test and the rational
statement of the 0.6 cutoff. -/
theorem cutoff_iff (a b : List Char) :
    3 * (ratioND a b).2 ≤ 5 * (ratioND a b).1 ↔ (3 : ℚ) / 5 ≤ simRatio a b := by
  unfold simRatio
  have hpos : (0 : ℚ) < ((ratioND a b).2 : ℚ) := by
    exact_mod_cast ratioND_den_pos a b
  rw [div_le_div_iff₀ (by norm_num) hpos]
  constructor
  · intro h
    calc (3 : ℚ) * ((ratioND a b).2 : ℚ) = ((3 * (ratioND a b).2 : Nat) : ℚ) := by
          push_cast; ring
      _ ≤ ((5 * (ratioND a b).1 : Nat) : ℚ) := by exact_mod_cast h
      _ = ((ratioND a b).1 : ℚ) * 5 := by push_cast; ring
  · intro h
    have : ((3 * (ratioND a b).2 : Nat) : ℚ) ≤ ((5 * (ratioND a b).1 : Nat) : ℚ) := by
      push_cast
      calc (3 : ℚ) * ((ratioND a b).2 : ℚ) ≤ ((ratioND a b).1 : ℚ) * 5 := h
        _ = 5 * ((ratioND a b).1 : ℚ) := by ring
    exact_mod_cast this

/-- Bridge between fraction-pair strict comparison and the rational
ratios. -/
theorem ratio_lt_iff (a b c d : List Char) :
    (ratioND a b).1 * (ratioND c d).2 < (ratioND c d).1 * (ratioND a b).2 ↔
      simRatio a b < simRatio c d := by
  unfold simRatio
  have hpos1 : (0 : ℚ) < ((ratioND a b).2 : ℚ) := by
    exact_mod_cast ratioND_den_pos a b
  have hpos2 : (0 : ℚ) < ((ratioND c d).2 : ℚ) := by
    exact_mod_cast ratioND_den_pos c d
  rw [div_lt_div_iff₀ hpos1 hpos2]
  constructor
  · intro h
    exact_mod_cast h
  · intro h
    exact_mod_cast h

theorem mem_getCloseMatches {word x : List Char} {poss : List (List Char)}
    (h : x ∈ getCloseMatches word poss) :
    x ∈ poss ∧ (3 : ℚ) / 5 ≤ simRatio x word := by
  unfold getCloseMatches at h
  rw [List.mem_map] at h
  rcases h with ⟨pr, hpr, rfl⟩
  have h1 : pr ∈ sortDesc _ := List.mem_of_mem_take hpr
  rw [mem_sortDesc] at h1
  rw [List.mem_filterMap] at h1
  rcases h1 with ⟨y, hy, hf⟩
  by_cases hc : 3 * (ratioND y word).2 ≤ 5 * (ratioND y word).1
  · rw [if_pos hc] at hf
    cases hf
    exact ⟨hy, (cutoff_iff y word).mp hc⟩
  · rw [if_neg hc] at hf
    cases hf

theorem correctFrom_exact {names : List (List Char)} {q : List Char}
    (h : ∃ nm ∈ names, normalizeName nm = normalizeName q) :
    correctFrom names q =
      sortAsc ((names.filter (fun nm =>
        decide (normalizeName nm = normalizeName q))).dedup) := by
  simp only [correctFrom]
  rw [pair_filter_map names (fun x => decide (x = normalizeName q))]
  have hne : names.filter (fun nm => decide (normalizeName nm = normalizeName q)) ≠ [] := by
    rcases h with ⟨nm, hmem, heq⟩
    intro he
    rw [List.filter_eq_nil_iff] at he
    exact he nm hmem (by simpa using heq)
  rw [if_pos hne]

theorem correctFrom_fuzzy {names : List (List Char)} {q : List Char}
    (hno : ∀ nm ∈ names, ¬(normalizeName nm = normalizeName q)) :
    correctFrom names q =
      sortAsc ((names.filter (fun nm =>
        (getCloseMatches (normalizeName q) (names.map normalizeName)).contains
          (normalizeName nm))).dedup) := by
  simp only [correctFrom]
  rw [pair_filter_map names (fun x => decide (x = normalizeName q))]
  have hemp : names.filter (fun nm => decide (normalizeName nm = normalizeName q)) = [] := by
    rw [List.filter_eq_nil_iff]
    intro nm hm
    simpa using hno nm hm
  rw [hemp]
  rw [if_neg (by simp)]
  rw [pair_snd_map, pair_filter_map names
    (fun x => (getCloseMatches (normalizeName q) (names.map normalizeName)).contains x)]

/-- Subset plus nodup bounds length through dedup. -/
theorem nodup_subset_length_le {l m : List (List Char)} (hn : l.Nodup)
    (hs : ∀ x ∈ l, x ∈ m) : l.length ≤ m.length := by
  classical
  have h1 : l.toFinset.card = l.length := List.toFinset_card_of_nodup hn
  have h2 : l.toFinset ⊆ m.toFinset := by
    intro x hx
    rw [List.mem_toFinset] at hx
    rw [List.mem_toFinset]
    exact hs x hx
  have h3 := Finset.card_le_card h2
  have h4 : m.toFinset.card ≤ m.length := by
    rw [List.card_toFinset]
    exact (List.dedup_sublist m).length_le
  omega

/-! ### C3: exact matches win -/

/-- C3: if any in-scope reference name normalizes equal to the normalized
query, correct_city/correct_street return exactly the sorted de-duplicated
exact matches, and every returned suggestion is an exact match (so no
fuzzy candidate appears). -/
theorem claim3_exact_wins (data : RefData) (q : List Char)
    (pc : Option (List Char)) :
    ((∃ nm ∈ (inScopeCities data pc).map Prod.snd,
        normalizeName nm = normalizeName q) →
      correctCity data q pc =
        sortAsc ((((inScopeCities data pc).map Prod.snd).filter (fun nm =>
          decide (normalizeName nm = normalizeName q))).dedup) ∧
      ∀ nm ∈ correctCity data q pc, normalizeName nm = normalizeName q) ∧
    ((∃ nm ∈ (inScopeStreets data pc).map Prod.snd,
        normalizeName nm = normalizeName q) →
      correctStreet data q pc =
        sortAsc ((((inScopeStreets data pc).map Prod.snd).filter (fun nm =>
          decide (normalizeName nm = normalizeName q))).dedup) ∧
      ∀ nm ∈ correctStreet data q pc, normalizeName nm = normalizeName q) := by
  constructor
  · intro h
    have heq := correctFrom_exact h
    refine ⟨heq, ?_⟩
    intro nm hnm
    rw [show correctCity data q pc = correctFrom ((inScopeCities data pc).map Prod.snd) q
      from rfl] at hnm
    rw [heq] at hnm
    rw [mem_sortAsc] at hnm
    have := List.of_mem_filter (List.mem_dedup.mp hnm)
    simpa using this
  · intro h
    have heq := correctFrom_exact h
    refine ⟨heq, ?_⟩
    intro nm hnm
    rw [show correctStreet data q pc = correctFrom ((inScopeStreets data pc).map Prod.snd) q
      from rfl] at hnm
    rw [heq] at hnm
    rw [mem_sortAsc] at hnm
    have := List.of_mem_filter (List.mem_dedup.mp hnm)
    simpa using this

/-- Witness for C3 at the test fixture data: the exact matches are
returned. -/
theorem claim3_witness :
    correctCity amersfoortData (cs "amersfoort") none = [cs "AMERSFOORT"] ∧
    correctStreet amersfoortData (cs "Smallepad") none = [cs "SMALLEPAD"] := by
  constructor
  · have h := ((claim3_exact_wins amersfoortData (cs "amersfoort") none).1
      ⟨cs "AMERSFOORT", by decide, by decide⟩).1
    rw [h]
    decide
  · have h := ((claim3_exact_wins amersfoortData (cs "Smallepad") none).2
      ⟨cs "SMALLEPAD", by decide, by decide⟩).1
    rw [h]
    decide

/-! ### C2: fuzzy phase -/

/-- C2 counterexample: with eleven reference city names and the query
"aaab" (no exact match anywhere in scope), correct_city returns eleven
suggestions — more than 10 — in ascending name order, and the first
returned name has a strictly smaller similarity ratio than the last; so
the returned list is neither capped at 10 names nor ordered by descending
ratio. -/
theorem claim2_counterexample :
    (correctCity cexCityData (cs "aaab") none).length = 11 ∧
    (correctCity cexCityData (cs "aaab") none).head? = some (cs "aaab-1") ∧
    (correctCity cexCityData (cs "aaab") none).getLast? = some (cs "aaabz") ∧
    simRatio (normalizeName (cs "aaab-1")) (normalizeName (cs "aaab")) <
      simRatio (normalizeName (cs "aaabz")) (normalizeName (cs "aaab")) ∧
    (∀ nm ∈ cexCityData.cityMap.map Prod.snd,
      ¬(normalizeName nm = normalizeName (cs "aaab"))) := by
  set_option maxRecDepth 80000 in
  refine ⟨by decide, by decide, by decide,
    (ratio_lt_iff _ _ _ _).mp (by decide), by decide⟩

/-- C2 amended: when no in-scope name matches exactly, every suggestion
returned by correct_city/correct_street has similarity ratio >= 0.6
against the normalized query; the fuzzy phase selects at most 10
normalized forms (so the suggestions carry at most 10 distinct normalized
forms, though mapping back to original names can produce more than 10
entries); and the returned list is ordered ascending lexicographically by
original name, not by descending ratio. -/
theorem claim2_fuzzy_props (data : RefData) (q : List Char)
    (pc : Option (List Char)) :
    ((∀ nm ∈ (inScopeCities data pc).map Prod.snd,
        ¬(normalizeName nm = normalizeName q)) →
      (∀ nm ∈ correctCity data q pc,
        (3 : ℚ) / 5 ≤ simRatio (normalizeName nm) (normalizeName q)) ∧
      StrSorted (correctCity data q pc) ∧
      ((correctCity data q pc).map normalizeName).dedup.length ≤ 10) ∧
    ((∀ nm ∈ (inScopeStreets data pc).map Prod.snd,
        ¬(normalizeName nm = normalizeName q)) →
      (∀ nm ∈ correctStreet data q pc,
        (3 : ℚ) / 5 ≤ simRatio (normalizeName nm) (normalizeName q)) ∧
      StrSorted (correctStreet data q pc) ∧
      ((correctStreet data q pc).map normalizeName).dedup.length ≤ 10) := by
  have main : ∀ (names : List (List Char)),
      (∀ nm ∈ names, ¬(normalizeName nm = normalizeName q)) →
      (∀ nm ∈ correctFrom names q,
        (3 : ℚ) / 5 ≤ simRatio (normalizeName nm) (normalizeName q)) ∧
      StrSorted (correctFrom names q) ∧
      ((correctFrom names q).map normalizeName).dedup.length ≤ 10 := by
    intro names hno
    have heq := correctFrom_fuzzy hno
    have hmemf : ∀ nm ∈ correctFrom names q,
        normalizeName nm ∈
          getCloseMatches (normalizeName q) (names.map normalizeName) := by
      intro nm hnm
      rw [heq, mem_sortAsc] at hnm
      have := List.of_mem_filter (List.mem_dedup.mp hnm)
      simpa using this
    refine ⟨?_, ?_, ?_⟩
    · intro nm hnm
      exact (mem_getCloseMatches (hmemf nm hnm)).2
    · rw [heq]
      exact sorted_sortAsc _
    · apply le_trans ?_ (getCloseMatches_length (normalizeName q)
        (names.map normalizeName))
      apply nodup_subset_length_le (List.nodup_dedup _)
      intro x hx
      have hx2 := List.mem_dedup.mp hx
      rw [List.mem_map] at hx2
      rcases hx2 with ⟨nm, hnm, rfl⟩
      exact hmemf nm hnm
  exact ⟨main _, main _⟩

/-- Witness for the C2 amended theorem at the counterexample data. -/
theorem claim2_witness :
    (∀ nm ∈ correctCity cexCityData (cs "aaab") none,
      (3 : ℚ) / 5 ≤ simRatio (normalizeName nm) (normalizeName (cs "aaab"))) ∧
    StrSorted (correctCity cexCityData (cs "aaab") none) ∧
    ((correctCity cexCityData (cs "aaab") none).map normalizeName).dedup.length ≤ 10 :=
  (claim2_fuzzy_props cexCityData (cs "aaab") none).1 (by
    set_option maxRecDepth 80000 in decide)

/-! ### C10: unusable postcode scopes are ignored -/

/-- C10: if the postcode argument, after removing spaces and upper-casing,
does not begin with 4 digits, correct_city behaves as if no postcode were
given; if it is not exactly 4 digits followed by 2 letters, correct_street
behaves as if no postcode were given; neither raises. -/
theorem claim10_scope_ignored (data : RefData) (q p : List Char) :
    (¬(4 ≤ (cleanPcFilter p).length ∧
        ((cleanPcFilter p).take 4).all Char.isDigit = true) →
      correctCity data q (some p) = correctCity data q none) ∧
    (¬((cleanPcFilter p).length = 6 ∧
        ((cleanPcFilter p).take 4).all Char.isDigit = true ∧
        ((cleanPcFilter p).drop 4).all pyIsAlpha = true) →
      correctStreet data q (some p) = correctStreet data q none) := by
  constructor
  · intro h
    have hf : pc4Filter (some p) = pc4Filter none := by
      simp only [pc4Filter]
      by_cases hp : p = []
      · rw [if_pos hp]
      · rw [if_neg hp, if_neg (by exact_mod_cast h)]
    unfold correctCity inScopeCities
    rw [hf]
  · intro h
    have hf : pc6Filter (some p) = pc6Filter none := by
      simp only [pc6Filter]
      by_cases hp : p = []
      · rw [if_pos hp]
      · rw [if_neg hp, if_neg (by exact_mod_cast h)]
    unfold correctStreet inScopeStreets
    rw [hf]

/-- Witness for C10: a letters-only postcode filter is ignored by both
corrections. -/
theorem claim10_witness :
    correctCity amersfoortData (cs "amersfoort") (some (cs "XX")) =
      correctCity amersfoortData (cs "amersfoort") none ∧
    correctStreet amersfoortData (cs "smallepad") (some (cs "3811M")) =
      correctStreet amersfoortData (cs "smallepad") none :=
  ⟨(claim10_scope_ignored amersfoortData (cs "amersfoort") (cs "XX")).1 (by decide),
   (claim10_scope_ignored amersfoortData (cs "smallepad") (cs "3811M")).2 (by decide)⟩

/-! ### C7: the house-number range check -/

/-- C7 counterexample: a record whose stored pc6 key is lower-case; the
check returns false for exactly that pc6 string even though an entry
indexed under it matches, because the lookup upper-cases the key. -/
theorem claim7_counterexample :
    isHouseNumberValid cexRangeData 7 (cs "1234ab") 3 = false ∧
    (indexedUnder cexRangeData (cs "1234ab")).any (fun e =>
      decide (e.streetId = 7 ∧ e.hnrFrom ≤ 3 ∧ 3 ≤ e.hnrTo)) = true := by
  refine ⟨by decide, by decide⟩

/-- C7 amended: the check returns true iff some RangeEntry indexed under
the upper-cased pc6 has the given street id and an inclusive range
containing the house number. -/
theorem claim7_range_check (data : RefData) (sid : Int) (pc6 : List Char)
    (n : Int) :
    isHouseNumberValid data sid pc6 n = true ↔
      ∃ e ∈ indexedUnder data (pc6.map pyUpperC),
        e.streetId = sid ∧ e.hnrFrom ≤ n ∧ n ≤ e.hnrTo := by
  unfold isHouseNumberValid getAddressesByPc6
  rw [List.any_eq_true]
  constructor
  · intro ⟨e, he, hp⟩
    exact ⟨e, he, of_decide_eq_true hp⟩
  · intro ⟨e, he, hp⟩
    exact ⟨e, he, decide_eq_true hp⟩

/-- Witness for the C7 amended theorem at concrete inputs. -/
theorem claim7_witness :
    isHouseNumberValid amersfoortData 12345 (cs "3811mg") 35 = true :=
  (claim7_range_check amersfoortData 12345 (cs "3811mg") 35).mpr
    ⟨⟨cs "3811MG", 31, 50, 12345, 3811⟩, by decide, by decide⟩

/-! ### C5: the loader stores parsed range values unchecked -/

/-- C5 counterexample: the record "1234AB|50|30|1|2" is accepted by the
loader and stored in the index with houseNumberFrom = 50 greater than
houseNumberTo = 30. -/
theorem claim5_counterexample :
    loadHnr [cs "1234AB|50|30|1|2"] = [⟨cs "1234AB", 50, 30, 1, 2⟩] ∧
    ¬((50 : Int) ≤ 30) := by
  refine ⟨by decide, by decide⟩

/-- C5 amended: the loader stores the parsed from/to values without
enforcing the invariant: when the to-field of the record is blank, to
defaults to from (so from <= to holds); when it is explicit, the stored
to-value is exactly the parsed field, so from <= to holds only if the
record itself satisfies it. -/
theorem claim5_loader_stores_parsed (line : List Char) (e : HnrEntry)
    (h : parseHnrLine line = some e) :
    (pyStrip ((pySplitChar '|' (pyStrip line)).getD 2 []) = [] →
      e.hnrTo = e.hnrFrom) ∧
    (pyStrip ((pySplitChar '|' (pyStrip line)).getD 2 []) ≠ [] →
      pyInt ((pySplitChar '|' (pyStrip line)).getD 2 []) = some e.hnrTo) := by
  unfold parseHnrLine at h
  by_cases hnil : pyStrip line = []
  · rw [if_pos hnil] at h
    cases h
  · rw [if_neg hnil] at h
    split at h
    case _ p0 p1 p2 p3 p4 tail heq =>
      have hp2 : (p0 :: p1 :: p2 :: p3 :: p4 :: tail).getD 2 [] = p2 := rfl
      rw [heq, hp2]
      by_cases hlen : (pyStrip p0).length = 6
      · rw [if_pos hlen] at h
        split at h
        case _ hf => cases h
        case _ f hf =>
          split at h
          case _ ht => cases h
          case _ t ht =>
            by_cases h3 : pyStrip p3 = []
            · rw [if_pos h3] at h
              cases h
            · rw [if_neg h3] at h
              split at h
              case _ => cases h
              case _ sid hsid =>
                by_cases h4 : pyStrip p4 = []
                · rw [if_pos h4] at h
                  cases h
                · rw [if_neg h4] at h
                  split at h
                  case _ => cases h
                  case _ cid hcid =>
                    cases h
                    constructor
                    · intro hblank
                      rw [if_pos hblank] at ht
                      cases ht
                      rfl
                    · intro hblank
                      rw [if_neg hblank] at ht
                      rw [ht]
      · rw [if_neg hlen] at h
        cases h
    case _ hne => cases h

/-- Witness for the C5 amended theorem: a record with a blank to-field
stores to = from, and one with an explicit to-field stores the parsed
value. -/
theorem claim5_witness :
    ((pyStrip (((pySplitChar '|' (pyStrip (cs "1234AB|5||7|9"))).getD 2 [])) = [] →
      (HnrEntry.mk (cs "1234AB") 5 5 7 9).hnrTo =
        (HnrEntry.mk (cs "1234AB") 5 5 7 9).hnrFrom) ∧
     (pyStrip (((pySplitChar '|' (pyStrip (cs "1234AB|5||7|9"))).getD 2 [])) ≠ [] →
      pyInt ((pySplitChar '|' (pyStrip (cs "1234AB|5||7|9"))).getD 2 []) =
        some (HnrEntry.mk (cs "1234AB") 5 5 7 9).hnrTo)) :=
  claim5_loader_stores_parsed (cs "1234AB|5||7|9") ⟨cs "1234AB", 5, 5, 7, 9⟩
    (by decide)

/-! ### C1: the structured validation operation -/

/-- C1: `DutchAddressHandler.validate` constructs an Address from the
typed components and evaluates the validator on it, always returning a
boolean; when the constructed address's pc6 has no entries (malformed or
unknown input) the result is simply false.  The validator itself is
modelled from the spec, since the `AddressValidator` class imported by
`address.py` is absent from the repository sources. -/
theorem claim1_validate_total (data : RefData) (s : List Char) (n : Int)
    (e p c : List Char) :
    handlerValidate data s n e p c = isValid data (mkAddress s n e p c) ∧
    (getAddressesByPc6 data (mkAddress s n e p c).pc6 = [] →
      handlerValidate data s n e p c = false) := by
  refine ⟨rfl, ?_⟩
  intro h
  simp only [handlerValidate, isValid, h]

/-- Witness for C1: with no reference data every input validates to
false without failing. -/
theorem claim1_witness :
    handlerValidate emptyData (cs "SMALLEPAD") 30 (cs "E") (cs "3811 MG")
      (cs "AMERSFOORT") = false :=
  (claim1_validate_total emptyData (cs "SMALLEPAD") 30 (cs "E") (cs "3811 MG")
    (cs "AMERSFOORT")).2 (by decide)

/-! ### Digit and letter facts for the two-line grammar -/

theorem pyIsSpace_cases {c : Char} (h : pyIsSpace c = true) :
    c = ' ' ∨ c = '\t' ∨ c = '\n' ∨ c = '\r' ∨ c = '\x0b' ∨ c = '\x0c' := by
  have := h
  simp only [pyIsSpace, Bool.or_eq_true, decide_eq_true_eq] at this
  tauto

theorem digit_not_space {c : Char} (h : c.isDigit = true) : pyIsSpace c = false := by
  by_contra hc
  have hs : pyIsSpace c = true := by
    cases hh : pyIsSpace c
    · exact absurd hh hc
    · rfl
  rcases pyIsSpace_cases hs with rfl | rfl | rfl | rfl | rfl | rfl <;> cases h

theorem alpha_not_space {c : Char} (h : c.isAlpha = true) : pyIsSpace c = false := by
  by_contra hc
  have hs : pyIsSpace c = true := by
    cases hh : pyIsSpace c
    · exact absurd hh hc
    · rfl
  rcases pyIsSpace_cases hs with rfl | rfl | rfl | rfl | rfl | rfl <;> cases h

theorem isDigit_toNat {c : Char} (h : c.isDigit = true) :
    48 ≤ c.toNat ∧ c.toNat ≤ 57 := by
  simp only [Char.isDigit, Bool.and_eq_true, decide_eq_true_eq] at h
  constructor
  · exact h.1
  · exact h.2

theorem isAlpha_toNat {c : Char} (h : c.isAlpha = true) :
    (65 ≤ c.toNat ∧ c.toNat ≤ 90) ∨ (97 ≤ c.toNat ∧ c.toNat ≤ 122) := by
  simp only [Char.isAlpha, Char.isUpper, Char.isLower, Bool.or_eq_true,
    Bool.and_eq_true, decide_eq_true_eq] at h
  rcases h with ⟨h1, h2⟩ | ⟨h1, h2⟩
  · left
    constructor
    · exact h1
    · exact h2
  · right
    constructor
    · exact h1
    · exact h2

theorem alpha_not_digit {c : Char} (h : c.isAlpha = true) : c.isDigit = false := by
  by_contra hc
  have hd : c.isDigit = true := by
    cases hh : c.isDigit
    · exact absurd hh hc
    · rfl
  have h1 := isDigit_toNat hd
  rcases isAlpha_toNat h with ⟨h2, h3⟩ | ⟨h2, h3⟩ <;> omega

theorem digitChar_facts {d : Nat} (h : d < 10) :
    (Nat.digitChar d).toNat - 48 = d ∧ (Nat.digitChar d).isDigit = true := by
  interval_cases d <;> exact ⟨by decide, by decide⟩

theorem natToChars_ne_nil (m : Nat) : natToChars m ≠ [] := by
  unfold natToChars
  by_cases h : m = 0
  · rw [if_pos h]
    simp
  · rw [if_neg h]
    simp only [ne_eq, List.map_eq_nil_iff, List.reverse_eq_nil_iff]
    exact Nat.digits_ne_nil_iff_ne_zero.mpr h

theorem natToChars_all_digit {m : Nat} {c : Char} (h : c ∈ natToChars m) :
    c.isDigit = true := by
  unfold natToChars at h
  by_cases hm : m = 0
  · rw [if_pos hm] at h
    simp at h
    subst h
    decide
  · rw [if_neg hm] at h
    rw [List.mem_map] at h
    rcases h with ⟨d, hd, rfl⟩
    rw [List.mem_reverse] at hd
    exact (digitChar_facts (Nat.digits_lt_base (by norm_num) hd)).2

theorem foldl_digit_chars : ∀ (l : List Nat), (∀ d ∈ l, d < 10) → ∀ (acc : Nat),
    ((l.reverse.map Nat.digitChar).foldl (fun a c => a * 10 + (c.toNat - 48)) acc)
      = acc * 10 ^ l.length + Nat.ofDigits 10 l := by
  intro l
  induction l with
  | nil =>
    intro _ acc
    simp [Nat.ofDigits]
  | cons d t ih =>
    intro hlt acc
    rw [List.reverse_cons, List.map_append, List.foldl_append]
    rw [ih (fun x hx => hlt x (List.mem_cons_of_mem _ hx)) acc]
    simp only [List.map_cons, List.map_nil, List.foldl_cons, List.foldl_nil]
    rw [(digitChar_facts (hlt d (List.mem_cons_self _ _))).1]
    rw [Nat.ofDigits_cons, List.length_cons, pow_succ]
    ring

theorem charsToNat_natToChars (m : Nat) : charsToNat (natToChars m) = m := by
  unfold charsToNat natToChars
  by_cases h : m = 0
  · rw [if_pos h, h]
    rfl
  · rw [if_neg h]
    rw [foldl_digit_chars (Nat.digits 10 m)
      (fun d hd => Nat.digits_lt_base (by norm_num) hd) 0]
    rw [Nat.ofDigits_digits]
    ring

/-! ### takeWhile / dropWhile / head? / getLast? utilities -/

theorem head?_append_left {l m : List Char} (h : l ≠ []) :
    (l ++ m).head? = l.head? := by
  cases l with
  | nil => exact absurd rfl h
  | cons a t => rfl

theorem getLast?_append_right {l m : List Char} (h : m ≠ []) :
    (l ++ m).getLast? = m.getLast? :=
  List.getLast?_append_of_ne_nil _ h

theorem takeWhile_append_all {p : Char → Bool} :
    ∀ {xs ys : List Char}, (∀ c ∈ xs, p c = true) →
    (∀ c, ys.head? = some c → p c = false) →
    (xs ++ ys).takeWhile p = xs ∧ (xs ++ ys).dropWhile p = ys := by
  intro xs
  induction xs with
  | nil =>
    intro ys _ hys
    constructor
    · cases ys with
      | nil => rfl
      | cons b u =>
        simp only [List.nil_append, List.takeWhile_cons, hys b rfl]
        simp
    · cases ys with
      | nil => rfl
      | cons b u =>
        simp only [List.nil_append, List.dropWhile_cons, hys b rfl]
        simp
  | cons a t ih =>
    intro ys hxs hys
    have ha := hxs a (List.mem_cons_self _ _)
    have iht := ih (fun c hc => hxs c (List.mem_cons_of_mem _ hc)) hys
    constructor
    · simp only [List.cons_append, List.takeWhile_cons, ha, iht.1]
      simp
    · simp only [List.cons_append, List.dropWhile_cons, ha, iht.2]
      simp [iht.2]

theorem strip_fixed_head {l : List Char} {c : Char} (hfix : pyStrip l = l)
    (h : l.head? = some c) : pyIsSpace c = false := by
  rw [← hfix] at h
  exact pyStrip_head_not_ws h

theorem strip_fixed_last {l : List Char} {c : Char} (hfix : pyStrip l = l)
    (h : l.getLast? = some c) : pyIsSpace c = false := by
  rw [← hfix] at h
  exact pyStrip_last_not_ws h

theorem all_eq_false_of_mem {p : Char → Bool} {l : List Char} {x : Char}
    (hx : x ∈ l) (hp : p x = false) : l.all p = false := by
  by_contra hc
  have hall : l.all p = true := by
    cases hh : l.all p
    · exact absurd hh hc
    · rfl
  rw [List.all_eq_true] at hall
  rw [hall x hx] at hp
  cases hp

theorem mem_dropWhile_of_mem {p : Char → Bool} :
    ∀ {l : List Char} {x : Char}, x ∈ l → p x = false → x ∈ l.dropWhile p := by
  intro l
  induction l with
  | nil =>
    intro x hx _
    cases hx
  | cons a t ih =>
    intro x hx hp
    rw [List.dropWhile_cons]
    by_cases ha : p a
    · rw [if_pos ha]
      rcases List.mem_cons.mp hx with rfl | hx2
      · rw [ha] at hp
        cases hp
      · exact ih hx2 hp
    · rw [if_neg ha]
      exact hx

/-! ### Street-line parsing lemmas -/

theorem takeWhile_nil_of_head {p : Char → Bool} {l : List Char}
    (h : ∀ c, l.head? = some c → p c = false) : l.takeWhile p = [] := by
  cases l with
  | nil => rfl
  | cons a t =>
    simp only [List.takeWhile_cons, h a rfl]
    simp

theorem dropWhile_append_of_ne {p : Char → Bool} :
    ∀ {xs : List Char} {t : List Char} (ys : List Char),
      xs.dropWhile p = t → t ≠ [] → (xs ++ ys).dropWhile p = t ++ ys := by
  intro xs
  induction xs with
  | nil =>
    intro t ys h hne
    rw [← h]
    exact absurd h.symm (by simpa using hne)
  | cons a u ih =>
    intro t ys h hne
    rw [List.dropWhile_cons] at h
    rw [List.cons_append, List.dropWhile_cons]
    by_cases ha : p a
    · rw [if_pos ha] at h ⊢
      exact ih ys h hne
    · rw [if_neg ha] at h ⊢
      rw [← h]
      simp

theorem tailDecomp_success {D E : List Char}
    (hD : ∀ c ∈ D, c.isDigit = true) (hDne : D ≠ [])
    (hE : ∀ c ∈ E, c.isAlpha = true) :
    tailDecomp (' ' :: (D ++ E)) = some (charsToNat D, E) := by
  have hdehead : ∀ c, (D ++ E).head? = some c → pyIsSpace c = false := by
    intro c hc
    cases D with
    | nil => exact absurd rfl hDne
    | cons d t =>
      rw [List.cons_append, List.head?_cons] at hc
      cases hc
      exact digit_not_space (hD _ (List.mem_cons_self _ _))
  have hEhead : ∀ c, E.head? = some c → c.isDigit = false := by
    intro c hc
    cases E with
    | nil => cases hc
    | cons e t =>
      rw [List.head?_cons] at hc
      cases hc
      exact alpha_not_digit (hE _ (List.mem_cons_self _ _))
  have h1 : (' ' :: (D ++ E)).takeWhile pyIsSpace = [' '] := by
    rw [List.takeWhile_cons]
    simp only [show pyIsSpace ' ' = true from rfl, if_true]
    rw [takeWhile_nil_of_head hdehead]
  have h2 : (' ' :: (D ++ E)).dropWhile pyIsSpace = D ++ E := by
    rw [List.dropWhile_cons]
    simp only [show pyIsSpace ' ' = true from rfl, if_true]
    exact dropWhile_eq_self_of_head hdehead
  have h3 := takeWhile_append_all hD hEhead
  simp only [tailDecomp, h1, h2, h3.1, h3.2]
  rw [if_pos]
  refine ⟨by simp, hDne, List.all_eq_true.mpr hE⟩

theorem tailDecomp_none {s2 D E : List Char} (hs2 : s2 ≠ [])
    (hlast : ∀ c, s2.getLast? = some c → pyIsSpace c = false) :
    tailDecomp (s2 ++ ' ' :: (D ++ E)) = none := by
  cases ht : s2.dropWhile pyIsSpace with
  | nil =>
    exfalso
    have hall : s2.takeWhile pyIsSpace = s2 := by
      have : s2.takeWhile pyIsSpace ++ s2.dropWhile pyIsSpace = s2 :=
        List.takeWhile_append_dropWhile pyIsSpace s2
      rw [ht, List.append_nil] at this
      exact this
    cases hgl : s2.getLast? with
    | none =>
      rw [List.getLast?_eq_none_iff] at hgl
      exact hs2 hgl
    | some c =>
      have hcmem : c ∈ s2 := List.mem_of_getLast?_eq_some hgl
      have hws : pyIsSpace c = true := by
        rw [← hall] at hcmem
        exact List.mem_takeWhile_imp hcmem
      rw [hlast c hgl] at hws
      cases hws
  | cons t0 trest =>
    have hdrop : (s2 ++ ' ' :: (D ++ E)).dropWhile pyIsSpace =
        (t0 :: trest) ++ ' ' :: (D ++ E) :=
      dropWhile_append_of_ne _ ht (by simp)
    have hsp : ' ' ∈ ((t0 :: trest) ++ ' ' :: (D ++ E)).dropWhile Char.isDigit := by
      apply mem_dropWhile_of_mem
      · exact List.mem_append_right _ (List.mem_cons_self _ _)
      · decide
    have hallf : (((t0 :: trest) ++ ' ' :: (D ++ E)).dropWhile Char.isDigit).all
        Char.isAlpha = false :=
      all_eq_false_of_mem hsp (by decide)
    simp only [tailDecomp, hdrop]
    rw [if_neg]
    intro ⟨_, _, hC⟩
    rw [hallf] at hC
    cases hC

theorem scan_through {S D E : List Char}
    (hS3 : '\n' ∉ S)
    (hlastS : ∀ c, S.getLast? = some c → pyIsSpace c = false)
    (hD : ∀ c ∈ D, c.isDigit = true) (hDne : D ≠ [])
    (hE : ∀ c ∈ E, c.isAlpha = true) :
    ∀ (s2 acc : List Char), S = acc ++ s2 → s2 ≠ [] →
      scanStreet acc (s2 ++ ' ' :: (D ++ E)) = some (S, charsToNat D, E) := by
  intro s2
  induction s2 with
  | nil =>
    intro acc _ h
    exact absurd rfl h
  | cons c s2' ih =>
    intro acc hacc _
    have hcS : c ∈ S := by
      rw [hacc]
      exact List.mem_append_right _ (List.mem_cons_self _ _)
    rw [List.cons_append, scanStreet]
    rw [if_neg (show ¬(c = '\n') from fun he => hS3 (by rw [← he]; exact hcS))]
    cases s2' with
    | nil =>
      rw [List.nil_append]
      rw [tailDecomp_success hD hDne hE]
      rw [hacc]
    | cons c2 s2'' =>
      have hlast2 : ∀ x, (c2 :: s2'').getLast? = some x → pyIsSpace x = false := by
        intro x hx
        apply hlastS
        rw [hacc, getLast?_append_right (by simp), List.getLast?_cons_cons]
        exact hx
      have hnone : tailDecomp ((c2 :: s2'') ++ ' ' :: (D ++ E)) = none :=
        tailDecomp_none (by simp) hlast2
      rw [hnone]
      exact ih (acc ++ [c]) (by rw [hacc]; simp) (by simp)

/-! ### City-line parsing lemmas -/

theorem collapse_id : ∀ {l : List Char}, noTwoAdjWs l = true →
    collapseWs2 l = l := by
  intro l
  induction l using collapseWs2.induct with
  | case1 => intro _; rfl
  | case2 c => intro _; rfl
  | case3 c1 c2 h =>
    intro hch
    rw [noTwoAdjWs] at hch
    rw [h] at hch
    cases hch
  | case4 c1 c2 h =>
    intro _
    rw [collapseWs2, if_neg h]
  | case5 c1 c2 c3 rest h h3 ih =>
    intro hch
    rw [noTwoAdjWs] at hch
    rw [h] at hch
    cases hch
  | case6 c1 c2 c3 rest h h3 ih =>
    intro hch
    rw [noTwoAdjWs] at hch
    rw [h] at hch
    cases hch
  | case7 c1 c2 c3 rest h ih =>
    intro hch
    rw [collapseWs2, if_neg h, ih (noTwoAdjWs_tail hch)]

theorem splitOn2Sp_cons_cons (c1 c2 : Char) (rest : List Char) :
    splitOn2Sp (c1 :: c2 :: rest) =
      if (decide (c1 = ' ') && decide (c2 = ' ')) = true then [] :: splitOn2Sp rest
      else
        match splitOn2Sp (c2 :: rest) with
        | [] => [[c1]]
        | q :: qs => (c1 :: q) :: qs := rfl

theorem split_single : ∀ {l : List Char}, noTwoAdjWs l = true →
    splitOn2Sp l = [l] := by
  intro l
  induction l using splitOn2Sp.induct with
  | case1 => intro _; rfl
  | case2 c => intro _; rfl
  | case3 c1 c2 rest h ih =>
    intro hch
    simp only [Bool.and_eq_true, decide_eq_true_eq] at h
    rw [noTwoAdjWs] at hch
    rw [h.1, h.2] at hch
    simp [show pyIsSpace ' ' = true from rfl] at hch
  | case4 c1 c2 rest h hnil ih =>
    intro hch
    rw [ih (noTwoAdjWs_tail hch)] at hnil
    cases hnil
  | case5 c1 c2 rest h p ps heq ih =>
    intro hch
    rw [ih (noTwoAdjWs_tail hch)] at heq
    cases heq
    rw [splitOn2Sp, if_neg h, ih (noTwoAdjWs_tail hch)]

theorem collapse_sep_nil {C : List Char}
    (hh : ∀ c, C.head? = some c → pyIsSpace c = false)
    (hch : noTwoAdjWs C = true) :
    collapseWs2 (' ' :: ' ' :: C) = ' ' :: ' ' :: C := by
  cases C with
  | nil => rfl
  | cons c3 rest =>
    rw [collapseWs2, if_pos (by decide), if_neg (by simp [hh c3 rfl])]
    rw [collapse_id hch]

theorem collapse_sep {C : List Char}
    (hhC : ∀ c, C.head? = some c → pyIsSpace c = false)
    (hchC : noTwoAdjWs C = true) :
    ∀ {P : List Char}, noTwoAdjWs P = true →
    (∀ c, P.getLast? = some c → pyIsSpace c = false) →
    collapseWs2 (P ++ ' ' :: ' ' :: C) = P ++ ' ' :: ' ' :: C := by
  intro P
  induction P with
  | nil =>
    intro _ _
    exact collapse_sep_nil hhC hchC
  | cons p P' ih =>
    intro hch hlast
    cases P' with
    | nil =>
      have hp : pyIsSpace p = false := hlast p rfl
      rw [List.cons_append, List.nil_append]
      rw [collapseWs2, if_neg (by simp [hp])]
      rw [collapse_sep_nil hhC hchC]
    | cons p2 P'' =>
      have hp12 : (pyIsSpace p && pyIsSpace p2) = false := by
        cases hb : (pyIsSpace p && pyIsSpace p2)
        · rfl
        · rw [noTwoAdjWs, hb] at hch
          exact absurd hch (by simp)
      have htail := ih (noTwoAdjWs_tail hch)
        (fun c hc => hlast c (by rw [List.getLast?_cons_cons]; exact hc))
      rw [List.cons_append] at htail
      cases hPC : P'' ++ ' ' :: ' ' :: C with
      | nil => simp at hPC
      | cons q qs =>
        rw [show (p :: p2 :: P'') ++ ' ' :: ' ' :: C =
          p :: p2 :: (P'' ++ ' ' :: ' ' :: C) from rfl, hPC]
        rw [collapseWs2, if_neg (by simp [hp12])]
        rw [← hPC, htail]

theorem split_sep {C : List Char} :
    ∀ {P : List Char}, noTwoAdjWs P = true →
    (∀ c, P.getLast? = some c → pyIsSpace c = false) →
    splitOn2Sp (P ++ ' ' :: ' ' :: C) = P :: splitOn2Sp C := by
  intro P
  induction P with
  | nil =>
    intro _ _
    rw [List.nil_append, splitOn2Sp, if_pos (by decide)]
  | cons p P' ih =>
    intro hch hlast
    cases P' with
    | nil =>
      have hp : pyIsSpace p = false := hlast p rfl
      have hpne : ¬(p = ' ') := by
        intro he
        rw [he] at hp
        cases hp
      rw [List.cons_append, List.nil_append]
      rw [splitOn2Sp_cons_cons]
      rw [if_neg (by simp [hpne])]
      rw [show splitOn2Sp (' ' :: ' ' :: C) = [] :: splitOn2Sp C from rfl]
    | cons p2 P'' =>
      have hp12 : ¬((decide (p = ' ') && decide (p2 = ' ')) = true) := by
        simp only [Bool.and_eq_true, decide_eq_true_eq]
        intro ⟨h1, h2⟩
        rw [noTwoAdjWs] at hch
        rw [h1, h2] at hch
        simp [show pyIsSpace ' ' = true from rfl] at hch
      have htail := ih (noTwoAdjWs_tail hch)
        (fun c hc => hlast c (by rw [List.getLast?_cons_cons]; exact hc))
      rw [List.cons_append] at htail
      rw [show (p :: p2 :: P'') ++ ' ' :: ' ' :: C =
        p :: p2 :: (P'' ++ ' ' :: ' ' :: C) from rfl]
      rw [splitOn2Sp_cons_cons]
      rw [if_neg hp12]
      rw [htail]

theorem parseLine2_roundtrip {P C : List Char} (hPne : P ≠ [])
    (hPfix : pyStrip P = P) (hPch : noTwoAdjWs P = true) (hCne : C ≠ [])
    (hCfix : pyStrip C = C) (hCch : noTwoAdjWs C = true) :
    parseLine2 (P ++ ' ' :: ' ' :: C) = some (P, C) := by
  have hhC : ∀ c, C.head? = some c → pyIsSpace c = false :=
    fun c hc => strip_fixed_head hCfix hc
  have hlastP : ∀ c, P.getLast? = some c → pyIsSpace c = false :=
    fun c hc => strip_fixed_last hPfix hc
  have hstrip : pyStrip (P ++ ' ' :: ' ' :: C) = P ++ ' ' :: ' ' :: C := by
    apply pyStrip_eq_self
    · intro c hc
      rw [head?_append_left hPne] at hc
      exact strip_fixed_head hPfix hc
    · intro c hc
      rw [getLast?_append_right (by simp)] at hc
      cases C with
      | nil => exact absurd rfl hCne
      | cons c0 C0 =>
        rw [List.getLast?_cons_cons, List.getLast?_cons_cons] at hc
        exact strip_fixed_last hCfix hc
  simp only [parseLine2]
  rw [hstrip, collapse_sep hhC hCch hPch hlastP]
  rw [split_sep hPch hlastP, split_single hCch]
  show some (pyStrip P, pyStrip C) = some (P, C)
  rw [hPfix, hCfix]

theorem splitOn2Sp_ne_nil (l : List Char) : splitOn2Sp l ≠ [] := by
  induction l using splitOn2Sp.induct with
  | case1 => simp [splitOn2Sp]
  | case2 c => simp [splitOn2Sp]
  | case3 c1 c2 rest h ih =>
    rw [splitOn2Sp, if_pos h]
    simp
  | case4 c1 c2 rest h hnil ih =>
    rw [splitOn2Sp, if_neg h, hnil]
    simp
  | case5 c1 c2 rest h p ps heq ih =>
    rw [splitOn2Sp, if_neg h, heq]
    simp

/-! ### C6: the two-line round trip -/

theorem line1_strip_fixed {S E : List Char} {m : Nat}
    (hSne : S ≠ []) (hSfix : pyStrip S = S)
    (hEalpha : E.all Char.isAlpha = true) :
    pyStrip (S ++ ' ' :: (natToChars m ++ E)) =
      S ++ ' ' :: (natToChars m ++ E) := by
  have hDne := natToChars_ne_nil m
  have hDEne : natToChars m ++ E ≠ [] := by
    simp [hDne]
  apply pyStrip_eq_self
  · intro c hc
    rw [head?_append_left hSne] at hc
    exact strip_fixed_head hSfix hc
  · intro c hc
    rw [getLast?_append_right (by simp)] at hc
    have hc2 : (natToChars m ++ E).getLast? = some c := by
      cases hde : natToChars m ++ E with
      | nil => exact absurd hde hDEne
      | cons b t =>
        rw [hde] at hc
        rw [List.getLast?_cons_cons] at hc
        exact hc
    have hmem := List.mem_of_getLast?_eq_some hc2
    rcases List.mem_append.mp hmem with hm | hm
    · exact digit_not_space (natToChars_all_digit hm)
    · exact alpha_not_space (List.all_eq_true.mp hEalpha c hm)

theorem parseLine1_roundtrip {S E : List Char} {m : Nat}
    (hSne : S ≠ []) (hSfix : pyStrip S = S) (hS3 : '\n' ∉ S)
    (hEalpha : E.all Char.isAlpha = true) :
    parseLine1 (S ++ ' ' :: (natToChars m ++ E)) =
      some (S, m, E.map pyUpperC) := by
  have hDne := natToChars_ne_nil m
  have hDdig : ∀ c ∈ natToChars m, c.isDigit = true := fun c hc =>
    natToChars_all_digit hc
  have hEa : ∀ c ∈ E, c.isAlpha = true := List.all_eq_true.mp hEalpha
  have hlastS : ∀ c, S.getLast? = some c → pyIsSpace c = false := fun c hc =>
    strip_fixed_last hSfix hc
  have hscan := scan_through hS3 hlastS hDdig hDne hEa S [] rfl hSne
  unfold parseLine1
  rw [line1_strip_fixed hSne hSfix hEalpha, hscan]
  show some (pyStrip S, charsToNat (natToChars m), E.map pyUpperC) =
    some (S, m, E.map pyUpperC)
  rw [hSfix, charsToNat_natToChars]

/-- C6: for every Address whose fields contain no characters illegal in
the two-line grammar — nonempty strip-stable newline-free street,
letters-only upper-case extension, non-negative house number, nonempty
strip-stable postcode and city free of adjacent whitespace pairs, the
postcode in stored (normalized) form — parsing the two lines produced by
to_lines yields an Address equal to the original in every field. -/
theorem claim6_round_trip (a : Address) (h : linesLegal a) :
    fromLines (toLines a) = some a := by
  obtain ⟨sName, hnum, ext, pc, city⟩ := a
  obtain ⟨h1, h2, h3, h4, h5, h6, h7, h8, h9, h10, h11, h12, h13⟩ := h
  have hD : intToChars hnum = natToChars hnum.toNat := by
    unfold intToChars
    rw [if_neg (not_lt.mpr h6)]
  have hp1 : parseLine1 (pyStrip (sName ++ ' ' ::
      (natToChars hnum.toNat ++ ext))) =
      some (sName, hnum.toNat, ext.map pyUpperC) := by
    rw [line1_strip_fixed h1 h2 h4]
    exact parseLine1_roundtrip h1 h2 h3 h4
  have hp2 : parseLine2 (pc ++ ' ' :: ' ' :: city) = some (pc, city) :=
    parseLine2_roundtrip h8 h9 h10 h11 h12 h13
  have hEq : fromLines (toLines ⟨sName, hnum, ext, pc, city⟩) =
      (match parseLine1 (pyStrip (sName ++ ' ' :: (intToChars hnum ++ ext))),
             parseLine2 (pc ++ ' ' :: ' ' :: city) with
       | some (s, n, e), some (pp, ct) => some (mkAddress s (Int.ofNat n) e pp ct)
       | _, _ => none) := rfl
  rw [hEq, hD, hp1, hp2]
  show some (mkAddress sName (Int.ofNat hnum.toNat) (ext.map pyUpperC) pc city) =
    some (Address.mk sName hnum ext pc city)
  unfold mkAddress
  rw [h5, h5, h7]
  rw [show (Int.ofNat hnum.toNat) = hnum from Int.toNat_of_nonneg h6]

/-- Witness for C6 at a concrete legal address. -/
theorem claim6_witness :
    linesLegal (mkAddress (cs "Smallepad") 30 (cs "E") (cs "3811 MG")
      (cs "Amersfoort")) ∧
    fromLines (toLines (mkAddress (cs "Smallepad") 30 (cs "E") (cs "3811 MG")
      (cs "Amersfoort"))) =
      some (mkAddress (cs "Smallepad") 30 (cs "E") (cs "3811 MG")
        (cs "Amersfoort")) := by
  constructor
  · refine ⟨by decide, by decide, by decide, by decide, by decide, by decide,
      by decide, by decide, by decide, by decide, by decide, by decide, by decide⟩
  · apply claim6_round_trip
    refine ⟨by decide, by decide, by decide, by decide, by decide, by decide,
      by decide, by decide, by decide, by decide, by decide, by decide, by decide⟩
